import Mathlib

/-! # Expense tracker: a shallow embedding of `main.go`

The program keeps a ledger of expense records in the file `expense.json`.
Every command reads the whole file, changes the record list and writes the
whole file back.  This development embeds

* the data model (`expense`), with Go `int` as a wrapping 64-bit integer and
  Go `float64` as an IEEE 754 binary64 bit pattern;
* the backing store as the text of the file (or its absence), together with
  the JSON text that `json.MarshalIndent` writes and `json.Unmarshal` reads;
* the operations `readFile`, `writeFile`, `getID`, `add`, `update`, `delete`
  and `summary`, as functions from the store before a call to the returned
  error, the store after the call and the lines printed.

Go strings are modelled as sequences of Unicode scalar values (`List Char`), that is
as valid UTF-8 text.  The clock (`time.Now`) is an argument of the operations
that read it.  Reading and writing the file itself never fails in this model:
the errors of `readFile` are those of `json.Unmarshal`, the errors of
`writeFile` those of `json.MarshalIndent`.

The text of a `float64` in the file is the one part of the JSON text that is not
written out here: the operations take the two conversions of package strconv as
an argument (`FloatFmt`) and every property is proved for all conversions that
write a JSON number, read back what they wrote and never read NaN or an infinity.
`exactFmt` is such a pair, with which the operations run on concrete files.
-/

namespace ExpenseTracker

/-! ## Machine integers -/

/-- Go `int` on a 64-bit platform: an integer in `[-2^63, 2^63)`. -/
structure GoInt where
  val : Int
  lo : -(2 ^ 63) ≤ val
  hi : val < 2 ^ 63
deriving DecidableEq

/-- Two's-complement wrap-around of an arbitrary integer into the range of `int`:
the result of Go integer arithmetic whose exact result is `x`. -/
def GoInt.wrap (x : Int) : GoInt :=
  ⟨(x + 2 ^ 63) % 2 ^ 64 - 2 ^ 63, by omega, by omega⟩

instance : OfNat GoInt n := ⟨GoInt.wrap n⟩

/-- Largest value of `int` (`math.MaxInt`). -/
def maxInt : Nat := 2 ^ 63 - 1

/-! ## float64 -/

/-- Go `float64`: the IEEE 754 binary64 bit pattern, as `math.Float64bits` shows it. -/
structure F64 where
  bits : Nat
  lt : bits < 2 ^ 64
deriving DecidableEq

/-- The float with the given bit pattern (`math.Float64frombits`). -/
def F64.ofBits (n : Nat) : F64 := ⟨n % 2 ^ 64, Nat.mod_lt _ (by decide)⟩

def F64.sign (x : F64) : Bool := decide (2 ^ 63 ≤ x.bits)
def F64.expo (x : F64) : Nat := x.bits / 2 ^ 52 % 2048
def F64.frac (x : F64) : Nat := x.bits % 2 ^ 52
def F64.isNaN (x : F64) : Bool := x.expo == 2047 && x.frac != 0
def F64.isInf (x : F64) : Bool := x.expo == 2047 && x.frac == 0
def F64.isFinite (x : F64) : Bool := x.expo != 2047

/-- Magnitude of a finite float in units of `2^-1074`. -/
def F64.mag (x : F64) : Nat :=
  if x.expo = 0 then x.frac else (2 ^ 52 + x.frac) * 2 ^ (x.expo - 1)

/-- Value of a finite float in units of `2^-1074`. -/
def F64.toInt (x : F64) : Int := if x.sign then -(x.mag : Int) else x.mag

/-- Floor of the binary logarithm, by halving; the first argument bounds the
number of steps. -/
def log2Fuel : Nat → Nat → Nat
  | 0, _ => 0
  | f + 1, n => if n < 2 then 0 else log2Fuel f (n / 2) + 1

/-- Bit pattern (sign bit clear) of the float nearest to a positive real, ties to
even.  The real is given in units of `2^-1076` by its integer part `t` and by whether
a fraction was cut off (`sticky`).  At or above `2047 * 2^52` the result stands for
overflow. -/
def roundUnits (t : Nat) (sticky : Bool) : Nat :=
  let s := log2Fuel t t - 54
  let q := t / 2 ^ (s + 2)
  let low := t % 2 ^ (s + 2)
  let half := 2 ^ (s + 1)
  let up : Bool := decide (half < low) || (low == half && (sticky || q % 2 == 1))
  s * 2 ^ 52 + q + (if up then 1 else 0)

/-- Bit pattern (sign bit clear) of `k * 2^-1074` rounded to nearest, ties to even;
the pattern of infinity when the rounded value overflows. -/
def roundMag (k : Nat) : Nat :=
  if 2047 * 2 ^ 52 ≤ roundUnits (4 * k) false then 2047 * 2 ^ 52 else roundUnits (4 * k) false

def F64.posZero : F64 := F64.ofBits 0
def F64.negZero : F64 := F64.ofBits (2 ^ 63)
def F64.quietNaN : F64 := F64.ofBits 0x7FF8000000000001

/-- IEEE 754 addition, round to nearest even: Go's `+` on `float64`.  Which NaN a
NaN result is depends on the processor; a NaN operand is returned quieted and
an invalid operation gives `math.NaN()`. -/
def fadd (a b : F64) : F64 :=
  if a.isNaN then F64.ofBits (a.bits ||| 2 ^ 51)
  else if b.isNaN then F64.ofBits (b.bits ||| 2 ^ 51)
  else if a.isInf then (if b.isInf && (a.sign != b.sign) then F64.quietNaN else a)
  else if b.isInf then b
  else
    let s := a.toInt + b.toInt
    if s = 0 then (if a.sign && b.sign then F64.negZero else F64.posZero)
    else if s < 0 then F64.ofBits (2 ^ 63 + roundMag s.natAbs)
    else F64.ofBits (roundMag s.natAbs)

/-! ## Data model -/

/-- A Go string, as valid UTF-8 text. -/
abbrev GoString := List Char

/-- The record type `expense` of `main.go`. -/
structure expense where
  ID : GoInt
  Date : GoString
  Description : GoString
  Amount : F64
deriving DecidableEq

/-- The errors the operations return. -/
inductive Err where
  /-- `*json.SyntaxError` from `json.Unmarshal`: the file is not JSON. -/
  | syntaxError
  /-- `*json.UnmarshalTypeError` from `json.Unmarshal`: the JSON is not a record list. -/
  | unmarshalType
  /-- `*json.UnsupportedValueError` from `json.MarshalIndent`: an amount is NaN or infinite. -/
  | unsupportedValue
  /-- `fmt.Errorf("expense with ID %d not found", id)` of `update`. -/
  | updateNotFound (id : GoInt)
  /-- `fmt.Errorf("expense with id %d doesn't exist", id)` of `delete`. -/
  | deleteNotFound (id : GoInt)
  /-- `*time.ParseError` from `time.Parse`, with the text that did not parse. -/
  | parseDate (value : GoString)
  /-- The run-time panic of `append` when the new length does not fit in an `int`. -/
  | lenOutOfRange
deriving DecidableEq

deriving instance DecidableEq for Except

/-! ## Decimal integers (package strconv) -/

def isDigit (c : Char) : Bool := decide (48 ≤ c.toNat ∧ c.toNat ≤ 57)

/-- The decimal digit `d`, for `d < 10`. -/
def digitChar (d : Nat) : Char :=
  match d with
  | 0 => '0' | 1 => '1' | 2 => '2' | 3 => '3' | 4 => '4'
  | 5 => '5' | 6 => '6' | 7 => '7' | 8 => '8' | _ => '9'

/-- Decimal digits of `n` in front of `acc`; the first argument bounds the number
of digits. -/
def natToDecAux : Nat → Nat → List Char → List Char
  | 0, _, acc => acc
  | f + 1, n, acc =>
    if n < 10 then digitChar n :: acc
    else natToDecAux f (n / 10) (digitChar (n % 10) :: acc)

/-- Shortest decimal numeral of a natural number. -/
def natToDec (n : Nat) : List Char := natToDecAux (n + 1) n []

/-- Value of a string of decimal digits. -/
def decToNat (cs : List Char) : Nat := cs.foldl (fun v c => 10 * v + (c.toNat - 48)) 0

/-- The text `strconv.AppendInt(_, x, 10)` produces: how encoding/json writes an `int`. -/
def formatInt (x : GoInt) : List Char :=
  if x.val < 0 then '-' :: natToDec x.val.natAbs else natToDec x.val.natAbs

/-- The result of `strconv.ParseInt(lit, 10, 64)` on a JSON number literal: `none` when the
literal has a fraction or an exponent or its value does not fit in 64 bits. -/
def parseInt (lit : List Char) : Option GoInt :=
  let neg : Bool := lit.head? == some '-'
  let ds := if neg then lit.tail else lit
  if ds ≠ [] ∧ ds.all isDigit then
    let v : Int := if neg then -(decToNat ds : Int) else decToNat ds
    if h : -(2 ^ 63) ≤ v ∧ v < 2 ^ 63 then some ⟨v, h.1, h.2⟩ else none
  else none

/-! ## JSON numbers -/

/-- The characters a JSON number literal is made of. -/
def isNumChar (c : Char) : Bool :=
  isDigit c || c == '-' || c == '+' || c == '.' || c == 'e' || c == 'E'

/-- The exponent part of a JSON number, or nothing: `[eE][+-]?[0-9]+`. -/
def validExp (cs : List Char) : Bool :=
  match cs with
  | [] => true
  | e :: r =>
    (e == 'e' || e == 'E') &&
      (let ds := if r.head? == some '+' || r.head? == some '-' then r.tail else r
       ds != [] && ds.all isDigit)

/-- The fraction and exponent parts of a JSON number, or nothing: `(\.[0-9]+)?` and then
the exponent. -/
def validFrac (cs : List Char) : Bool :=
  match cs with
  | [] => true
  | c :: r =>
    if c == '.' then r.takeWhile isDigit != [] && validExp (r.dropWhile isDigit)
    else validExp (c :: r)

/-- The part of a JSON number after the sign: `(0|[1-9][0-9]*)`, then the fraction and
the exponent. -/
def validBody (body : List Char) : Bool :=
  match body with
  | [] => false
  | d :: r =>
    if d == '0' then validFrac r
    else isDigit d && validFrac (r.dropWhile isDigit)

/-- Whether `lit` is a number literal of the JSON grammar:
`-?(0|[1-9][0-9]*)(\.[0-9]+)?([eE][+-]?[0-9]+)?`. -/
def validNumber (lit : List Char) : Bool :=
  validBody (if lit.head? == some '-' then lit.tail else lit)

/-- The digits of `n % 10^w`, exactly `w` of them. -/
def fixedDigits : Nat → Nat → List Char
  | 0, _ => []
  | w + 1, n => fixedDigits w (n / 10) ++ [digitChar (n % 10)]

/-- Drops zeros at the end of a `w`-digit number: the digits that stay, as their
number and their value. -/
def trimZeros : Nat → Nat → Nat × Nat
  | 0, n => (0, n)
  | w + 1, n => if n % 10 = 0 then trimZeros w (n / 10) else (w + 1, n)

/-- The exact decimal expansion of a finite float: the sign, the integer part and,
when there is one, the fraction without zeros at its end. -/
def formatExact (x : F64) : List Char :=
  let n := x.mag * 5 ^ 1074
  let frac := trimZeros 1074 (n % 10 ^ 1074)
  (if x.sign then ['-'] else []) ++ natToDec (n / 10 ^ 1074)
    ++ (if n % 10 ^ 1074 = 0 then [] else '.' :: fixedDigits frac.1 frac.2)

/-- The exponent of a number literal: what follows its digits and fraction, nothing
or `[eE][+-]?[0-9]+`. -/
def exponentOf (cs : List Char) : Int :=
  match cs with
  | [] => 0
  | _ :: r =>
    if r.head? == some '-' then -(decToNat r.tail : Int)
    else if r.head? == some '+' then decToNat r.tail
    else decToNat r

/-- The bit pattern (sign bit clear) of the float nearest to the value of a number
literal without its sign, ties to even; at or above `2047 * 2^52` for a value that
rounds to infinity. -/
def parseMagnitude (body : List Char) : Nat :=
  let intDigits := body.takeWhile isDigit
  let afterInt := body.dropWhile isDigit
  let hasFrac : Bool := afterInt.head? == some '.'
  let fracDigits := if hasFrac then afterInt.tail.takeWhile isDigit else []
  let afterFrac := if hasFrac then afterInt.tail.dropWhile isDigit else afterInt
  let digits := decToNat (intDigits ++ fracDigits)
  let e10 : Int := exponentOf afterFrac - fracDigits.length
  let num := if 0 ≤ e10 then digits * 10 ^ e10.toNat else digits
  let den := if 0 ≤ e10 then 1 else 10 ^ (-e10).toNat
  roundUnits (num * 2 ^ 1076 / den) (num * 2 ^ 1076 % den != 0)

/-- The float nearest to the value of a JSON number literal, ties to even
(`strconv.ParseFloat(lit, 64)`); `none` when that is an infinity, which is the error
`ErrRange`. -/
def parseNearest (lit : List Char) : Option F64 :=
  let neg : Bool := lit.head? == some '-'
  let b := parseMagnitude (if neg then lit.tail else lit)
  if b < 2047 * 2 ^ 52 then some (F64.ofBits ((if neg then 2 ^ 63 else 0) + b)) else none

/-- The two float64 conversions of package strconv that encoding/json calls.  They
are taken as given, with the three properties of them that the ledger relies on.
`format x` is the text `json.Marshal` writes for a finite `x`: the shortest decimal
that reads back as `x` (`strconv.AppendFloat(_, x, f, -1, 64)`, with `f` one of the
letters f and e).  `parse lit` is `strconv.ParseFloat(lit, 64)` on a JSON number
literal, `none` standing for an error return (a value out of range). -/
structure FloatFmt where
  format : F64 → List Char
  parse : List Char → Option F64
  /-- What `format` writes is a JSON number literal. -/
  format_valid : ∀ x, x.isFinite = true → validNumber (format x) = true
  /-- Reading back what `format` wrote gives the same float. -/
  parse_format : ∀ x, x.isFinite = true → parse (format x) = some x
  /-- A number literal never reads as NaN or an infinity. -/
  parse_finite : ∀ lit x, parse lit = some x → x.isFinite = true

/-! ## JSON strings (package encoding/json) -/

/-- Lower-case hexadecimal digit `d`, for `d < 16`. -/
def hexDigit (d : Nat) : Char :=
  if d < 10 then digitChar d
  else match d with
    | 10 => 'a' | 11 => 'b' | 12 => 'c' | 13 => 'd' | 14 => 'e' | _ => 'f'

/-- How `json.Marshal` writes one character of a string (HTML escaping on, as it is
by default): quote and backslash get a backslash, the control characters their
short or `\u00XX` escape, `<`, `>`, `&` and U+2028, U+2029 a `\uXXXX` escape. -/
def escapeChar (c : Char) : List Char :=
  if c = '"' ∨ c = '\\' then ['\\', c]
  else if c = '\x08' then ['\\', 'b']
  else if c = '\x0c' then ['\\', 'f']
  else if c = '\n' then ['\\', 'n']
  else if c = '\r' then ['\\', 'r']
  else if c = '\t' then ['\\', 't']
  else if c.toNat < 32 ∨ c = '<' ∨ c = '>' ∨ c = '&' then
    ['\\', 'u', '0', '0', hexDigit (c.toNat / 16), hexDigit (c.toNat % 16)]
  else if c = '\u2028' ∨ c = '\u2029' then
    ['\\', 'u', '2', '0', '2', hexDigit (c.toNat % 16)]
  else [c]

/-- A JSON string literal for `s`. -/
def encodeString (s : GoString) : List Char :=
  '"' :: (s.flatMap escapeChar ++ ['"'])

/-- Value of a hexadecimal digit, either case. -/
def hexVal (c : Char) : Option Nat :=
  if 48 ≤ c.toNat ∧ c.toNat ≤ 57 then some (c.toNat - 48)
  else if 97 ≤ c.toNat ∧ c.toNat ≤ 102 then some (c.toNat - 87)
  else if 65 ≤ c.toNat ∧ c.toNat ≤ 70 then some (c.toNat - 55)
  else none

/-- Value of four hexadecimal digits (`getu4`). -/
def hex4 (a b c d : Char) : Option Nat :=
  match hexVal a, hexVal b, hexVal c, hexVal d with
  | some x, some y, some z, some w => some (((x * 16 + y) * 16 + z) * 16 + w)
  | _, _, _, _ => none

/-- The code unit of a `\uXXXX` escape at the head of the text, if one stands there. -/
def getu4 (cs : List Char) : Option Nat :=
  match cs with
  | b :: u :: h1 :: h2 :: h3 :: h4 :: _ => if b = '\\' ∧ u = 'u' then hex4 h1 h2 h3 h4 else none
  | _ => none

/-- U+FFFD, which stands for what is not a character. -/
def replacementChar : Char := '\uFFFD'

/-- Reads a string literal after its opening quote: the string and the text after
the closing quote.  `none` when the literal does not end, holds a raw control
character or an escape that JSON does not have.  The first argument bounds the
number of steps; the length of the text is enough. -/
def unquoteBody : Nat → List Char → Option (GoString × List Char)
  | 0, _ => none
  | _ + 1, [] => none
  | fuel + 1, c :: cs =>
    if c = '"' then some ([], cs)
    else if c = '\\' then
      match cs with
      | [] => none
      | e :: cs1 =>
        if e = 'u' then
          match cs1 with
          | h1 :: h2 :: h3 :: h4 :: cs2 =>
            match hex4 h1 h2 h3 h4 with
            | none => none
            | some hi =>
              if 0xD800 ≤ hi ∧ hi < 0xE000 then
                match getu4 cs2 with
                | some lo =>
                  if hi < 0xDC00 ∧ 0xDC00 ≤ lo ∧ lo < 0xE000 then
                    (unquoteBody fuel (cs2.drop 6)).map fun p =>
                      (Char.ofNat (0x10000 + (hi - 0xD800) * 0x400 + (lo - 0xDC00)) :: p.1, p.2)
                  else (unquoteBody fuel cs2).map fun p => (replacementChar :: p.1, p.2)
                | none => (unquoteBody fuel cs2).map fun p => (replacementChar :: p.1, p.2)
              else (unquoteBody fuel cs2).map fun p => (Char.ofNat hi :: p.1, p.2)
          | _ => none
        else
          let plain : Option Char :=
            if e = '"' ∨ e = '\\' ∨ e = '/' then some e
            else if e = 'b' then some '\x08'
            else if e = 'f' then some '\x0c'
            else if e = 'n' then some '\n'
            else if e = 'r' then some '\r'
            else if e = 't' then some '\t'
            else none
          match plain with
          | none => none
          | some x => (unquoteBody fuel cs1).map fun p => (x :: p.1, p.2)
    else if c.toNat < 32 then none
    else (unquoteBody fuel cs).map fun p => (c :: p.1, p.2)

/-! ## JSON values and their text -/

/-- A JSON value; a number keeps its literal. -/
inductive JSON where
  | null
  | bool (b : Bool)
  | num (lit : List Char)
  | str (s : GoString)
  | arr (items : List JSON)
  | obj (members : List (GoString × JSON))

/-- JSON white space. -/
def isWs (c : Char) : Bool := c == ' ' || c == '\t' || c == '\r' || c == '\n'

def skipWs (cs : List Char) : List Char := cs.dropWhile isWs

mutual
/-- Reads one JSON value at the head of the text, after white space: the value and
the text after it.  The first argument bounds the depth of the recursion; the
length of the text is enough. -/
def parseValue : Nat → List Char → Option (JSON × List Char)
  | 0, _ => none
  | fuel + 1, cs =>
    match skipWs cs with
    | [] => none
    | c :: rest =>
      if c = '[' then
        match skipWs rest with
        | [] => none
        | d :: rest1 =>
          if d = ']' then some (JSON.arr [], rest1)
          else (parseElems fuel rest).map fun p => (JSON.arr p.1, p.2)
      else if c = '\x7b' then
        match skipWs rest with
        | [] => none
        | d :: rest1 =>
          if d = '\x7d' then some (JSON.obj [], rest1)
          else (parseMembers fuel rest).map fun p => (JSON.obj p.1, p.2)
      else if c = '"' then
        (unquoteBody rest.length rest).map fun p => (JSON.str p.1, p.2)
      else if c = 't' then
        match rest with
        | r :: u :: e :: rest1 =>
          if r = 'r' ∧ u = 'u' ∧ e = 'e' then some (JSON.bool true, rest1) else none
        | _ => none
      else if c = 'f' then
        match rest with
        | a :: l :: s :: e :: rest1 =>
          if a = 'a' ∧ l = 'l' ∧ s = 's' ∧ e = 'e' then some (JSON.bool false, rest1) else none
        | _ => none
      else if c = 'n' then
        match rest with
        | u :: l :: m :: rest1 =>
          if u = 'u' ∧ l = 'l' ∧ m = 'l' then some (JSON.null, rest1) else none
        | _ => none
      else
        let lit := (c :: rest).takeWhile isNumChar
        if validNumber lit then some (JSON.num lit, (c :: rest).dropWhile isNumChar) else none
/-- Reads the elements of an array up to its closing bracket. -/
def parseElems : Nat → List Char → Option (List JSON × List Char)
  | 0, _ => none
  | fuel + 1, cs =>
    match parseValue fuel cs with
    | none => none
    | some (v, rest) =>
      match skipWs rest with
      | [] => none
      | d :: rest1 =>
        if d = ',' then (parseElems fuel rest1).map fun p => (v :: p.1, p.2)
        else if d = ']' then some ([v], rest1)
        else none
/-- Reads the members of an object up to its closing brace. -/
def parseMembers : Nat → List Char → Option (List (GoString × JSON) × List Char)
  | 0, _ => none
  | fuel + 1, cs =>
    match skipWs cs with
    | [] => none
    | q :: rest =>
      if q = '"' then
        match unquoteBody rest.length rest with
        | none => none
        | some (key, rest1) =>
          match skipWs rest1 with
          | [] => none
          | colon :: rest2 =>
            if colon = ':' then
              match parseValue fuel rest2 with
              | none => none
              | some (v, rest3) =>
                match skipWs rest3 with
                | [] => none
                | d :: rest4 =>
                  if d = ',' then (parseMembers fuel rest4).map fun p => ((key, v) :: p.1, p.2)
                  else if d = '\x7d' then some ([(key, v)], rest4)
                  else none
            else none
      else none
end

/-- The JSON value a whole text stands for, if it is one JSON value and white space. -/
def parseJSON (data : List Char) : Option JSON :=
  match parseValue (data.length + 1) data with
  | none => none
  | some (v, rest) => if skipWs rest = [] then some v else none

/-! ## Decoding a record list (`json.Unmarshal` into `[]expense`) -/

/-- Simple case folding of one character of a key: encoding/json matches the key of a
member with the name of a field without regard to case. -/
def foldChar (c : Char) : Char :=
  if 65 ≤ c.toNat ∧ c.toNat ≤ 90 then Char.ofNat (c.toNat + 32)
  else if c = '\u017f' then 's'
  else if c = 'K' then 'k'
  else c

/-- The zero value of `expense`. -/
def zeroExpense : expense := ⟨0, [], [], F64.posZero⟩

/-- Decodes a JSON value into the field `ID`: `null` leaves the field as it is, a
number must be an integer that fits, anything else is an error. -/
def setID (e : expense) : JSON → Except Err expense
  | JSON.null => .ok e
  | JSON.num lit =>
    match parseInt lit with
    | some n => .ok { e with ID := n }
    | none => .error Err.unmarshalType
  | _ => .error Err.unmarshalType

/-- Decodes a JSON value into the field `Date`. -/
def setDate (e : expense) : JSON → Except Err expense
  | JSON.null => .ok e
  | JSON.str s => .ok { e with Date := s }
  | _ => .error Err.unmarshalType

/-- Decodes a JSON value into the field `Description`. -/
def setDescription (e : expense) : JSON → Except Err expense
  | JSON.null => .ok e
  | JSON.str s => .ok { e with Description := s }
  | _ => .error Err.unmarshalType

/-- Decodes a JSON value into the field `Amount`. -/
def setAmount (fc : FloatFmt) (e : expense) : JSON → Except Err expense
  | JSON.null => .ok e
  | JSON.num lit =>
    match fc.parse lit with
    | some x => .ok { e with Amount := x }
    | none => .error Err.unmarshalType
  | _ => .error Err.unmarshalType

/-- Stores the member `key: v` of a JSON object in the field of `e` that the struct
tags give that key; a key that names no field is skipped. -/
def setField (fc : FloatFmt) (e : expense) (key : GoString) (v : JSON) : Except Err expense :=
  let name := key.map foldChar
  if name = "id".toList then setID e v
  else if name = "date".toList then setDate e v
  else if name = "description".toList then setDescription e v
  else if name = "amount".toList then setAmount fc e v
  else .ok e

/-- Stores the members of an object one after the other, a later one over an
earlier one. -/
def setFields (fc : FloatFmt) : expense → List (GoString × JSON) → Except Err expense
  | e, [] => .ok e
  | e, (key, v) :: rest =>
    match setField fc e key v with
    | .error err => .error err
    | .ok e1 => setFields fc e1 rest

/-- One element of the array as a record: an object, or `null` for the zero record. -/
def decodeExpense (fc : FloatFmt) (v : JSON) : Except Err expense :=
  match v with
  | JSON.obj members => setFields fc zeroExpense members
  | JSON.null => .ok zeroExpense
  | _ => .error Err.unmarshalType

def decodeAll (fc : FloatFmt) : List JSON → Except Err (List expense)
  | [] => .ok []
  | v :: rest =>
    match decodeExpense fc v with
    | .error err => .error err
    | .ok e =>
      match decodeAll fc rest with
      | .error err => .error err
      | .ok es => .ok (e :: es)

/-- Result of `json.Unmarshal(data, &expenses)` for `var expenses []expense`. -/
def jsonUnmarshal (fc : FloatFmt) (data : List Char) : Except Err (List expense) :=
  match parseJSON data with
  | none => .error Err.syntaxError
  | some (JSON.arr items) => decodeAll fc items
  | some JSON.null => .ok []
  | some _ => .error Err.unmarshalType

/-! ## Encoding a record list (`json.MarshalIndent(expenses, "", " ")`) -/

/-- One member of an indented object at depth 2: a new line, the key and the value. -/
def encodeMember (key : GoString) (value : List Char) : List Char :=
  "\n  ".toList ++ encodeString key ++ ": ".toList ++ value

/-- The text of one record as an element of the indented array. -/
def encodeExpense (fc : FloatFmt) (e : expense) : List Char :=
  " \x7b".toList ++ encodeMember "id".toList (formatInt e.ID) ++ ",".toList
    ++ encodeMember "date".toList (encodeString e.Date) ++ ",".toList
    ++ encodeMember "description".toList (encodeString e.Description) ++ ",".toList
    ++ encodeMember "amount".toList (fc.format e.Amount) ++ "\n \x7d".toList

/-- The JSON value that the text of one record denotes. -/
def toJSON (fc : FloatFmt) (e : expense) : JSON :=
  JSON.obj [("id".toList, JSON.num (formatInt e.ID)), ("date".toList, JSON.str e.Date),
    ("description".toList, JSON.str e.Description), ("amount".toList, JSON.num (fc.format e.Amount))]

/-- The elements of the indented array, with the commas between them. -/
def encodeElems (fc : FloatFmt) : List expense → List Char
  | [] => []
  | [e] => encodeExpense fc e
  | e :: rest => encodeExpense fc e ++ ",\n".toList ++ encodeElems fc rest

/-- Result of `json.MarshalIndent(expenses, "", " ")`: an error when an amount is NaN
or infinite, else the text. -/
def jsonMarshalIndent (fc : FloatFmt) (expenses : List expense) : Except Err (List Char) :=
  if expenses.all (fun e => e.Amount.isFinite) then
    match expenses with
    | [] => .ok "[]".toList
    | _ => .ok ("[\n".toList ++ encodeElems fc expenses ++ "\n]".toList)
  else .error Err.unsupportedValue

/-! ## The clock and dates (package time) -/

/-- The local date that `time.Now()` shows during a call. -/
structure Clock where
  year : Nat
  month : Nat
  day : Nat

/-- The decimal numeral of `n`, with zeros in front up to the width `w`. -/
def zeroPad (w n : Nat) : List Char :=
  List.replicate (w - (natToDec n).length) '0' ++ natToDec n

/-- The value of `time.Now().Format("2006-01-02")`. -/
def formatDate (now : Clock) : GoString :=
  zeroPad 4 now.year ++ '-' :: zeroPad 2 now.month ++ '-' :: zeroPad 2 now.day

def isLeap (year : Nat) : Bool := year % 4 == 0 && (year % 100 != 0 || year % 400 == 0)

def daysIn (month year : Nat) : Nat :=
  if month = 2 then (if isLeap year then 29 else 28)
  else if month = 4 ∨ month = 6 ∨ month = 9 ∨ month = 11 then 30
  else 31

/-- The year, month and day of `time.Parse("2006-01-02", value)`, `none` for an error:
four digits, a hyphen, two digits, a hyphen, two digits and nothing more, the month
from 1 to 12 and the day one of that month. -/
def parseDate (value : GoString) : Option (Nat × Nat × Nat) :=
  match value with
  | [y1, y2, y3, y4, s1, m1, m2, s2, d1, d2] =>
    if [y1, y2, y3, y4, m1, m2, d1, d2].all isDigit ∧ s1 = '-' ∧ s2 = '-' then
      let year := decToNat [y1, y2, y3, y4]
      let month := decToNat [m1, m2]
      let day := decToNat [d1, d2]
      if 1 ≤ month ∧ month ≤ 12 ∧ 1 ≤ day ∧ day ≤ daysIn month year then some (year, month, day)
      else none
    else none
  | _ => none

/-! ## The backing store -/

/-- The file `expense.json`: absent, or its text. -/
abbrev Store := Option (List Char)

/-- A line printed on standard output. -/
inductive Line where
  /-- `Expense added successfully (ID: %d)`. -/
  | added (id : GoInt)
  /-- `Expense %d updated successfully`. -/
  | updated (id : GoInt)
  /-- `Expense %d deleted successfully`. -/
  | deleted (id : GoInt)
  /-- The column titles of the summary. -/
  | header
  /-- A rule of 85 hyphens. -/
  | rule
  /-- One row of the summary: ID, date, description and amount of a record. -/
  | row (e : expense)
  /-- `Total: %.2f`. -/
  | total (t : F64)
deriving DecidableEq

/-- What a call leaves behind: the error it returns (`none` for `nil`), the store
after the call and the lines it printed. -/
structure Result where
  err : Option Err
  store : Store
  out : List Line
deriving DecidableEq

/-- `readFile`: the records of the store, and the store after the call.  Opening
creates an absent file empty; an empty file holds no records. -/
def readFile (fc : FloatFmt) (st : Store) : Except Err (List expense) × Store :=
  let fileContent := st.getD []
  if fileContent.length = 0 then (.ok [], some fileContent)
  else (jsonUnmarshal fc fileContent, some fileContent)

/-- `writeFile`: the error returned and the store after the call. -/
def writeFile (fc : FloatFmt) (expenses : List expense) (st : Store) : Option Err × Store :=
  match jsonMarshalIndent fc expenses with
  | .error err => (some err, st)
  | .ok data => (none, some data)

/-! ## The operations -/

/-- `getID`: 1 for no records, else the ID of the last record plus one, in `int`
arithmetic. -/
def getID (expenses : List expense) : GoInt :=
  match expenses.getLast? with
  | none => 1
  | some last => GoInt.wrap (last.ID.val + 1)

/-- Go's `append(s, x)`: the length of a slice is an `int`, and `append` panics when
the new length would not fit. -/
def goAppend (s : List expense) (x : expense) : Option (List expense) :=
  if s.length < maxInt then some (s ++ [x]) else none

/-- `add(description, amount)`. -/
def add (fc : FloatFmt) (now : Clock) (description : GoString) (amount : F64) (st : Store) :
    Result :=
  match readFile fc st with
  | (.error err, st1) => ⟨some err, st1, []⟩
  | (.ok expenses, st1) =>
    let newExpense : expense :=
      { ID := getID expenses, Date := formatDate now, Description := description, Amount := amount }
    match goAppend expenses newExpense with
    | none => ⟨some Err.lenOutOfRange, st1, []⟩
    | some expenses1 =>
      match writeFile fc expenses1 st1 with
      | (some err, st2) => ⟨some err, st2, []⟩
      | (none, st2) => ⟨none, st2, [Line.added newExpense.ID]⟩

/-- The loop of `update`: the records with the description and amount of the first
one whose ID is `id` overwritten, `none` when the loop ends without a match. -/
def updateFirst (id : GoInt) (description : GoString) (amount : F64) :
    List expense → Option (List expense)
  | [] => none
  | t :: rest =>
    if t.ID = id then some ({ t with Description := description, Amount := amount } :: rest)
    else (updateFirst id description amount rest).map fun r => t :: r

/-- `update(id, description, amount)`. -/
def update (fc : FloatFmt) (id : GoInt) (description : GoString) (amount : F64) (st : Store) :
    Result :=
  match readFile fc st with
  | (.error err, st1) => ⟨some err, st1, []⟩
  | (.ok expenses, st1) =>
    match updateFirst id description amount expenses with
    | some expenses1 =>
      match writeFile fc expenses1 st1 with
      | (some err, st2) => ⟨some err, st2, []⟩
      | (none, st2) => ⟨none, st2, [Line.updated id]⟩
    | none => ⟨some (Err.updateNotFound id), st1, []⟩

/-- The loop of `delete`: the records without the first one whose ID is `id`
(`append(expenses[:i], expenses[i+1:]...)`), `none` when the loop ends without a
match. -/
def deleteFirst (id : GoInt) : List expense → Option (List expense)
  | [] => none
  | t :: rest =>
    if t.ID = id then some rest
    else (deleteFirst id rest).map fun r => t :: r

/-- `delete(id)`. -/
def delete (fc : FloatFmt) (id : GoInt) (st : Store) : Result :=
  match readFile fc st with
  | (.error err, st1) => ⟨some err, st1, []⟩
  | (.ok expenses, st1) =>
    match deleteFirst id expenses with
    | some expenses1 =>
      match writeFile fc expenses1 st1 with
      | (some err, st2) => ⟨some err, st2, []⟩
      | (none, st2) => ⟨none, st2, [Line.deleted id]⟩
    | none => ⟨some (Err.deleteNotFound id), st1, []⟩

/-- Whether `summary` prints the record and adds its amount to the total: every
record when the flag is not `--month`, else those of the given month of the
current year. -/
def passes (now : Clock) (flag : GoString) (month : GoInt) (year m : Nat) : Bool :=
  if flag = "--month".toList then decide ((m : Int) = month.val ∧ year = now.year)
  else true

/-- The loop of `summary` over the records still to visit, from the running total
and the lines printed so far: the error of the first date that does not parse, the
total and the lines. -/
def summaryLoop (now : Clock) (flag : GoString) (month : GoInt) :
    List expense → F64 → List Line → Option Err × F64 × List Line
  | [], total, out => (none, total, out)
  | t :: rest, total, out =>
    match parseDate t.Date with
    | none => (some (Err.parseDate t.Date), total, out)
    | some (year, m, _) =>
      if passes now flag month year m then
        summaryLoop now flag month rest (fadd total t.Amount) (out ++ [Line.row t])
      else summaryLoop now flag month rest total out

/-- `summary(flag, month)`. -/
def summary (fc : FloatFmt) (now : Clock) (flag : GoString) (month : GoInt) (st : Store) :
    Result :=
  match readFile fc st with
  | (.error err, st1) => ⟨some err, st1, []⟩
  | (.ok expenses, st1) =>
    match summaryLoop now flag month expenses F64.posZero [Line.header, Line.rule] with
    | (some err, _, out) => ⟨some err, st1, out⟩
    | (none, total, out) => ⟨none, st1, out ++ [Line.rule, Line.total total]⟩

/-! ## Ledgers and sequences of calls -/

/-- The ledger of a store: what `readFile` returns on it. -/
def ledgerOf (fc : FloatFmt) (st : Store) : Except Err (List expense) := (readFile fc st).1

/-- One call of a command that changes the ledger, with its arguments; `add` also
with the date of the call. -/
inductive Op where
  | add (now : Clock) (description : GoString) (amount : F64)
  | update (id : GoInt) (description : GoString) (amount : F64)
  | delete (id : GoInt)

def Op.isAdd : Op → Bool
  | Op.add _ _ _ => true
  | _ => false

/-- The call `op` on the store `st`. -/
def Op.run (fc : FloatFmt) (op : Op) (st : Store) : Result :=
  match op with
  | Op.add now description amount => ExpenseTracker.add fc now description amount st
  | Op.update id description amount => ExpenseTracker.update fc id description amount st
  | Op.delete id => ExpenseTracker.delete fc id st

/-- The store after the calls `ops`, one after the other, each on the store the
call before left, whether it failed or not. -/
def runAll (fc : FloatFmt) : List Op → Store → Store
  | [], st => st
  | op :: rest, st => runAll fc rest (op.run fc st).store

/-- The results of the calls `ops`, one after the other from the store `st`. -/
def results (fc : FloatFmt) : List Op → Store → List Result
  | [], _ => []
  | op :: rest, st => op.run fc st :: results fc rest (op.run fc st).store


/-- Successive calls `add(description, amount)`, each with the date it is made on. -/
def addCalls (calls : List (Clock × GoString × F64)) : List Op :=
  calls.map fun c => Op.add c.1 c.2.1 c.2.2

/-- The record that a call of `add` appends when it is given the ID `id`. -/
def recordOf (id : GoInt) (c : Clock × GoString × F64) : expense :=
  ⟨id, formatDate c.1, c.2.1, c.2.2⟩

/-! ## Counting the IDs -/

/-- The IDs of a ledger are the wrapped values of strictly increasing counters
between 1 and `a`. -/
def Counted (L : List expense) (a : Nat) : Prop :=
  ∃ u : List Nat, L.map (fun e => e.ID) = u.map (fun (n : Nat) => GoInt.wrap (n : Int)) ∧
    u.Pairwise (fun x y => x < y) ∧ ∀ n ∈ u, 1 ≤ n ∧ n ≤ a

/-! ## The summary, in the words of the specification -/

/-- Whether the date of a record parses and has the month `month` and the year
`year`. -/
def inMonth (month : GoInt) (year : Nat) (e : expense) : Bool :=
  match parseDate e.Date with
  | some (y, m, _) => decide ((m : Int) = month.val ∧ y = year)
  | none => false

/-- The rows that pass the filter: all records when the flag is not `--month`, else
the records of the month `month` of the current year. -/
def shownRows (now : Clock) (flag : GoString) (month : GoInt) (L : List expense) :
    List expense :=
  if flag = "--month".toList then L.filter (inMonth month now.year) else L

/-- The sum of the amounts of the rows, taken in their order from zero. -/
def sumAmounts (rows : List expense) : F64 :=
  rows.foldl (fun t e => fadd t e.Amount) F64.posZero

/-! ## Sample data -/

/-- A ledger file of three records, as `writeFile` leaves it. -/
def sampleStore : Store := some ("[\n \x7b\n  \"id\": 1,\n  \"date\": \"2024-03-09\",\n"
  ++ "  \"description\": \"lunch\",\n  \"amount\": 10\n \x7d,\n \x7b\n  \"id\": 2,\n"
  ++ "  \"date\": \"2024-04-02\",\n  \"description\": \"refund\",\n  \"amount\": -5.5\n \x7d,\n"
  ++ " \x7b\n  \"id\": 3,\n  \"date\": \"2024-03-11\",\n  \"description\": \"books\",\n"
  ++ "  \"amount\": 20\n \x7d\n]").toList

/-- The records of `sampleStore`; the amounts are 10, -5.5 and 20. -/
def sampleLedger : List expense :=
  [⟨1, "2024-03-09".toList, "lunch".toList, F64.ofBits 0x4024000000000000⟩,
   ⟨2, "2024-04-02".toList, "refund".toList, F64.ofBits 0xC016000000000000⟩,
   ⟨3, "2024-03-11".toList, "books".toList, F64.ofBits 0x4034000000000000⟩]

/-- A ledger file in which two records have the ID 1. -/
def duplicateStore : Store := some ("[\x7b\"id\": 1, \"date\": \"2024-03-09\", "
  ++ "\"description\": \"lunch\", \"amount\": 10\x7d, \x7b\"id\": 1, \"date\": \"2024-03-11\", "
  ++ "\"description\": \"books\", \"amount\": 20\x7d]").toList

/-- A ledger file with distinct IDs that are not in increasing order. -/
def unorderedStore : Store := some ("[\x7b\"id\": 2, \"date\": \"2024-03-09\", "
  ++ "\"description\": \"lunch\", \"amount\": 10\x7d, \x7b\"id\": 1, \"date\": \"2024-03-10\", "
  ++ "\"description\": \"tea\", \"amount\": 2\x7d, \x7b\"id\": 5, \"date\": \"2024-03-11\", "
  ++ "\"description\": \"books\", \"amount\": 20\x7d]").toList

/-- Three calls of `add` on an absent file. -/
def sampleCalls : List (Clock × GoString × F64) :=
  [(⟨2024, 3, 9⟩, "lunch".toList, F64.ofBits 0x4024000000000000),
   (⟨2024, 4, 2⟩, "refund".toList, F64.ofBits 0xC016000000000000),
   (⟨2024, 3, 11⟩, "books".toList, F64.ofBits 0x4034000000000000)]

/-- `n` rounds of: add a record, then delete the record that was last before it.
Round `j` deletes the ID `j + 2`. -/
def churn (now : Clock) (description : GoString) (amount : F64) : Nat → List Op
  | 0 => []
  | j + 1 => churn now description amount j ++
      [Op.add now description amount, Op.delete (GoInt.wrap ((j : Int) + 2))]

/-- Calls after which the ID counter has gone once around the range of `int`: two
calls of `add`, `2^64 - 2` rounds of `churn`, and one more call of `add`. -/
def overflowTrace (now : Clock) (description : GoString) (amount : F64) : List Op :=
  [Op.add now description amount, Op.add now description amount] ++
    churn now description amount (2 ^ 64 - 2) ++ [Op.add now description amount]

/-- Calls of all three commands, some of which fail. -/
def sampleOps : List Op :=
  [Op.add ⟨2024, 3, 9⟩ "lunch".toList (F64.ofBits 0x4024000000000000),
   Op.add ⟨2024, 3, 9⟩ "tea".toList (F64.ofBits 0x4000000000000000),
   Op.delete 1,
   Op.add ⟨2024, 3, 10⟩ "nan".toList F64.quietNaN,
   Op.update 5 "none".toList (F64.ofBits 0x4000000000000000),
   Op.add ⟨2024, 3, 11⟩ "books".toList (F64.ofBits 0x4034000000000000),
   Op.update 3 "book".toList (F64.ofBits 0x4034000000000000),
   Op.delete 3,
   Op.add ⟨2024, 3, 12⟩ "bus".toList (F64.ofBits 0x4000000000000000)]

/-- The date of the sample calls. -/
def sampleClock : Clock := ⟨2024, 3, 12⟩

/-! # Properties -/

/-! ## Decimal numerals -/

theorem digitChar_toNat (d : Nat) (h : d < 10) : (digitChar d).toNat = 48 + d := by
  interval_cases d <;> rfl

theorem isDigit_digitChar (d : Nat) (h : d < 10) : isDigit (digitChar d) = true := by
  interval_cases d <;> rfl

theorem decToNat_append_single (ds : List Char) (c : Char) :
    decToNat (ds ++ [c]) = 10 * decToNat ds + (c.toNat - 48) := by
  simp [decToNat, List.foldl_append]

/-- What `natToDecAux` puts in front of the accumulator. -/
theorem natToDecAux_spec (f : Nat) : ∀ (n : Nat) (acc : List Char), n < f →
    ∃ ds, natToDecAux f n acc = ds ++ acc ∧ ds ≠ [] ∧ (∀ c ∈ ds, isDigit c = true) ∧
      decToNat ds = n ∧ (ds.head? = some '0' → ds = ['0']) := by
  induction f with
  | zero => intro n acc h; omega
  | succ f ih =>
    intro n acc h
    by_cases h10 : n < 10
    · refine ⟨[digitChar n], ?_, by simp, ?_, ?_, ?_⟩
      · simp [natToDecAux, h10]
      · intro c hc
        simp at hc
        subst hc
        exact isDigit_digitChar n h10
      · simp [decToNat, digitChar_toNat n h10]
      · intro hh
        simp at hh
        simp [hh]
    · obtain ⟨ds, h1, h2, h3, h4, h5⟩ := ih (n / 10) (digitChar (n % 10) :: acc) (by omega)
      have hm : n % 10 < 10 := Nat.mod_lt _ (by decide)
      refine ⟨ds ++ [digitChar (n % 10)], ?_, by simp, ?_, ?_, ?_⟩
      · simp [natToDecAux, h10, h1]
      · intro c hc
        rcases List.mem_append.1 hc with hc | hc
        · exact h3 c hc
        · simp at hc
          subst hc
          exact isDigit_digitChar _ hm
      · rw [decToNat_append_single, h4, digitChar_toNat _ hm]
        omega
      · intro hh
        exfalso
        cases ds with
        | nil => exact h2 rfl
        | cons d ds' =>
          simp at hh
          have := h5 (by simp [hh])
          rw [this] at h4
          simp [decToNat] at h4
          omega

theorem natToDec_spec (n : Nat) :
    natToDec n ≠ [] ∧ (∀ c ∈ natToDec n, isDigit c = true) ∧ decToNat (natToDec n) = n ∧
      ((natToDec n).head? = some '0' → natToDec n = ['0']) := by
  obtain ⟨ds, h1, h2, h3, h4, h5⟩ := natToDecAux_spec (n + 1) n [] (by omega)
  have : natToDec n = ds := by simp [natToDec, h1]
  rw [this]
  exact ⟨h2, h3, h4, h5⟩

/-! ## Number literals -/

theorem takeWhile_append_stop {p : Char → Bool} (l : List Char) (c : Char) (r : List Char)
    (hl : ∀ x ∈ l, p x = true) (hc : p c = false) :
    (l ++ c :: r).takeWhile p = l ∧ (l ++ c :: r).dropWhile p = c :: r := by
  induction l with
  | nil => simp [List.takeWhile, List.dropWhile, hc]
  | cons a l ih =>
    have ha : p a = true := hl a (by simp)
    have := ih (fun x hx => hl x (by simp [hx]))
    simp [List.takeWhile, List.dropWhile, ha, this]

theorem dropWhile_all {p : Char → Bool} (l : List Char) (hl : ∀ x ∈ l, p x = true) :
    l.dropWhile p = [] := by
  induction l with
  | nil => rfl
  | cons a l ih =>
    have ha : p a = true := hl a (by simp)
    simp [List.dropWhile, ha, ih (fun x hx => hl x (by simp [hx]))]

theorem isNumChar_of_isDigit (c : Char) (h : isDigit c = true) : isNumChar c = true := by
  simp [isNumChar, h]

theorem validBody_digits (ds : List Char) (h0 : ds ≠ []) (hd : ∀ c ∈ ds, isDigit c = true)
    (hz : ds.head? = some '0' → ds = ['0']) : validBody ds = true := by
  cases ds with
  | nil => exact absurd rfl h0
  | cons d r =>
    have hdd : isDigit d = true := hd d (by simp)
    by_cases hzero : d = '0'
    · have := hz (by simp [hzero])
      simp at this
      simp [validBody, this.2, hzero, validFrac]
    · have hr : r.dropWhile isDigit = [] := dropWhile_all r (fun x hx => hd x (by simp [hx]))
      simp [validBody, hzero, hdd, hr, validFrac]

theorem head_ne_minus (ds : List Char) (hd : ∀ c ∈ ds, isDigit c = true) :
    (ds.head? == some '-') = false := by
  cases ds with
  | nil => simp
  | cons d r =>
    have hdd : isDigit d = true := hd d (by simp)
    have : ¬ d = '-' := by
      intro h
      rw [h] at hdd
      exact absurd hdd (by decide)
    simp [this]

theorem validNumber_digits (ds : List Char) (h0 : ds ≠ []) (hd : ∀ c ∈ ds, isDigit c = true)
    (hz : ds.head? = some '0' → ds = ['0']) : validNumber ds = true := by
  simp only [validNumber, head_ne_minus ds hd, Bool.false_eq_true, if_false]
  exact validBody_digits ds h0 hd hz

theorem validNumber_neg_digits (ds : List Char) (h0 : ds ≠ []) (hd : ∀ c ∈ ds, isDigit c = true)
    (hz : ds.head? = some '0' → ds = ['0']) : validNumber ('-' :: ds) = true := by
  simp only [validNumber, List.head?_cons, beq_self_eq_true, if_true, List.tail_cons]
  exact validBody_digits ds h0 hd hz

theorem validNumber_formatInt (x : GoInt) : validNumber (formatInt x) = true := by
  obtain ⟨h1, h2, _, h4⟩ := natToDec_spec x.val.natAbs
  unfold formatInt
  split
  · exact validNumber_neg_digits _ h1 h2 h4
  · exact validNumber_digits _ h1 h2 h4

theorem isNumChar_formatInt (x : GoInt) : ∀ c ∈ formatInt x, isNumChar c = true := by
  obtain ⟨_, h2, _, _⟩ := natToDec_spec x.val.natAbs
  intro c hc
  unfold formatInt at hc
  split at hc
  · simp at hc
    rcases hc with hc | hc
    · subst hc; decide
    · exact isNumChar_of_isDigit c (h2 c hc)
  · exact isNumChar_of_isDigit c (h2 c hc)

theorem GoInt.ext_val {a b : GoInt} (h : a.val = b.val) : a = b := by
  cases a; cases b; simp at h; subst h; rfl

theorem parseInt_formatInt (x : GoInt) : parseInt (formatInt x) = some x := by
  obtain ⟨h1, h2, h3, _⟩ := natToDec_spec x.val.natAbs
  have hall : (natToDec x.val.natAbs).all isDigit = true := by
    simpa [List.all_eq_true] using h2
  have hlo := x.lo
  have hhi := x.hi
  unfold formatInt
  split
  · rename_i hneg
    have hv : -((x.val.natAbs : Nat) : Int) = x.val := by omega
    simp only [parseInt, List.head?_cons, beq_self_eq_true, if_true, List.tail_cons, ne_eq, h1,
      not_false_eq_true, hall, and_self, h3, hv]
    rw [dif_pos ⟨hlo, hhi⟩]
  · rename_i hneg
    have hv : ((x.val.natAbs : Nat) : Int) = x.val := by omega
    have hhead := head_ne_minus _ h2
    simp only [parseInt, hhead, Bool.false_eq_true, if_false, ne_eq, h1, not_false_eq_true, hall,
      and_self, if_true, h3, hv]
    rw [dif_pos ⟨hlo, hhi⟩]

theorem validExp_numChars (cs : List Char) (h : validExp cs = true) :
    ∀ c ∈ cs, isNumChar c = true := by
  cases cs with
  | nil => simp
  | cons e r =>
    simp only [validExp, Bool.and_eq_true, Bool.or_eq_true, beq_iff_eq, bne_iff_ne, ne_eq,
      List.all_eq_true] at h
    obtain ⟨he, _, hds⟩ := h
    intro c hc
    simp only [List.mem_cons] at hc
    rcases hc with hc | hc
    · subst hc
      rcases he with he | he <;> simp [isNumChar, he]
    · cases r with
      | nil => simp at hc
      | cons s r' =>
        by_cases hs : s = '+' ∨ s = '-'
        · simp only [List.head?_cons, Option.some.injEq, hs, if_true, List.tail_cons] at hds
          simp only [List.mem_cons] at hc
          rcases hc with hc | hc
          · subst hc
            rcases hs with hs | hs <;> simp [isNumChar, hs]
          · exact isNumChar_of_isDigit c (hds c hc)
        · simp only [List.head?_cons, Option.some.injEq, hs, if_false] at hds
          exact isNumChar_of_isDigit c (hds c hc)

theorem validFrac_numChars (cs : List Char) (h : validFrac cs = true) :
    ∀ c ∈ cs, isNumChar c = true := by
  cases cs with
  | nil => simp
  | cons d r =>
    by_cases hd : d = '.'
    · simp only [validFrac, hd, beq_self_eq_true, if_true, Bool.and_eq_true] at h
      intro c hc
      simp only [List.mem_cons] at hc
      rcases hc with hc | hc
      · subst hc; simp [isNumChar, hd]
      · rw [← List.takeWhile_append_dropWhile isDigit r] at hc
        rcases List.mem_append.1 hc with hc | hc
        · exact isNumChar_of_isDigit c (List.mem_takeWhile_imp hc)
        · exact validExp_numChars _ h.2 c hc
    · have : (d == '.') = false := by simp [hd]
      simp only [validFrac, this, Bool.false_eq_true, if_false] at h
      exact validExp_numChars _ h

theorem validBody_numChars (b : List Char) (hb : validBody b = true) :
    ∀ c ∈ b, isNumChar c = true := by
  cases b with
  | nil => simp
  | cons d r =>
    intro c hc
    simp only [List.mem_cons] at hc
    by_cases hz : d = '0'
    · simp only [validBody, hz, beq_self_eq_true, if_true] at hb
      rcases hc with hc | hc
      · subst hc; rw [hz]; decide
      · exact validFrac_numChars _ hb c hc
    · have : (d == '0') = false := by simp [hz]
      simp only [validBody, this, Bool.false_eq_true, if_false, Bool.and_eq_true] at hb
      rcases hc with hc | hc
      · subst hc; exact isNumChar_of_isDigit _ hb.1
      · rw [← List.takeWhile_append_dropWhile isDigit r] at hc
        rcases List.mem_append.1 hc with hc | hc
        · exact isNumChar_of_isDigit c (List.mem_takeWhile_imp hc)
        · exact validFrac_numChars _ hb.2 c hc

/-- A number literal is made of number characters only. -/
theorem validNumber_numChars (lit : List Char) (h : validNumber lit = true) :
    ∀ c ∈ lit, isNumChar c = true := by
  cases lit with
  | nil => simp
  | cons a t =>
    by_cases ha : a = '-'
    · subst ha
      simp only [validNumber, List.head?_cons, beq_self_eq_true, if_true, List.tail_cons] at h
      intro c hc
      simp only [List.mem_cons] at hc
      rcases hc with hc | hc
      · subst hc; decide
      · exact validBody_numChars t h c hc
    · have hh : ((a :: t).head? == some '-') = false := by simp [ha]
      simp only [validNumber, hh, Bool.false_eq_true, if_false] at h
      exact validBody_numChars _ h

/-! ## String literals -/

theorem hexVal_hexDigit (d : Nat) (h : d < 16) : hexVal (hexDigit d) = some d := by
  interval_cases d <;> rfl

theorem hex4_byte (n : Nat) (h : n < 256) :
    hex4 '0' '0' (hexDigit (n / 16)) (hexDigit (n % 16)) = some n := by
  have h1 : hexVal '0' = some 0 := rfl
  have h2 := hexVal_hexDigit (n / 16) (by omega)
  have h3 := hexVal_hexDigit (n % 16) (by omega)
  simp only [hex4, h1, h2, h3]
  congr 1
  omega

/-- One step of `unquoteBody` undoes one step of `escapeChar`. -/
theorem unquoteBody_escapeChar (c : Char) (fuel : Nat) (tail : List Char) :
    unquoteBody (fuel + 1) (escapeChar c ++ tail) =
      (unquoteBody fuel tail).map fun p => (c :: p.1, p.2) := by
  unfold escapeChar
  split
  · rename_i h
    rcases h with h | h <;> subst h <;> simp [unquoteBody]
  split
  · rename_i h; subst h; simp [unquoteBody]
  split
  · rename_i h; subst h; simp [unquoteBody]
  split
  · rename_i h; subst h; simp [unquoteBody]
  split
  · rename_i h; subst h; simp [unquoteBody]
  split
  · rename_i h; subst h; simp [unquoteBody]
  split
  · rename_i h
    have hn : c.toNat < 64 := by
      rcases h with h | h | h | h
      · omega
      · subst h; decide
      · subst h; decide
      · subst h; decide
    have hx := hex4_byte c.toNat (by omega)
    simp [unquoteBody, hx]
    omega
  split
  · rename_i h
    rcases h with h | h <;> subst h <;> simp [unquoteBody] <;> rfl
  · rename_i h1 h2 h3 h4 h5 h6 h7 h8
    have hq : ¬ c = '"' := fun h => h1 (Or.inl h)
    have hb : ¬ c = '\\' := fun h => h1 (Or.inr h)
    have hlt : ¬ c.toNat < 32 := fun h => h7 (Or.inl h)
    simp [unquoteBody, hq, hb, hlt]

theorem unquoteBody_escape (s : GoString) : ∀ (fuel : Nat) (rest : List Char), s.length < fuel →
    unquoteBody fuel (s.flatMap escapeChar ++ '"' :: rest) = some (s, rest) := by
  induction s with
  | nil =>
    intro fuel rest h
    obtain ⟨f, rfl⟩ : ∃ f, fuel = f + 1 := ⟨fuel - 1, by simp at h; omega⟩
    simp [unquoteBody]
  | cons c s ih =>
    intro fuel rest h
    obtain ⟨f, rfl⟩ : ∃ f, fuel = f + 1 := ⟨fuel - 1, by simp at h; omega⟩
    simp only [List.flatMap_cons, List.append_assoc]
    rw [unquoteBody_escapeChar, ih f rest (by simp at h; omega)]
    rfl

theorem length_escape_ge (s : GoString) : s.length ≤ (s.flatMap escapeChar).length := by
  induction s with
  | nil => simp
  | cons c s ih =>
    have : 1 ≤ (escapeChar c).length := by
      unfold escapeChar
      repeat' split
      all_goals simp
    simp only [List.flatMap_cons, List.length_append, List.length_cons]
    omega

/-! ## Reading back what the encoder wrote -/

theorem skipWs_ws (w : Char) (cs : List Char) (h : isWs w = true) :
    skipWs (w :: cs) = skipWs cs := by
  simp [skipWs, List.dropWhile, h]

theorem skipWs_stop (c : Char) (cs : List Char) (h : isWs c = false) :
    skipWs (c :: cs) = c :: cs := by
  simp [skipWs, List.dropWhile, h]

theorem parseValue_ws (w : Char) (h : isWs w = true) (fuel : Nat) (cs : List Char) :
    parseValue fuel (w :: cs) = parseValue fuel cs := by
  cases fuel with
  | zero => simp [parseValue]
  | succ f => simp only [parseValue, skipWs_ws w cs h]

/-- A number literal followed by a character that cannot continue it reads as itself. -/
theorem parseValue_num (fuel : Nat) (lit : List Char) (c : Char) (tail : List Char)
    (hv : validNumber lit = true) (hc : isNumChar c = false) :
    parseValue (fuel + 1) (lit ++ c :: tail) = some (JSON.num lit, c :: tail) := by
  have hall := validNumber_numChars lit hv
  cases lit with
  | nil => simp [validNumber, validBody] at hv
  | cons a t =>
    have ha : isNumChar a = true := hall a (by simp)
    have hne : ∀ x : Char, isNumChar x = false → ¬ a = x := by
      intro x hx h
      rw [h] at ha
      rw [ha] at hx
      exact absurd hx (by decide)
    have hws : isWs a = false := by
      cases hw : isWs a with
      | false => rfl
      | true =>
        exfalso
        simp only [isWs, Bool.or_eq_true, beq_iff_eq] at hw
        rcases hw with ((hw | hw) | hw) | hw
        · exact hne ' ' (by decide) hw
        · exact hne '\t' (by decide) hw
        · exact hne '\r' (by decide) hw
        · exact hne '\n' (by decide) hw
    have h1 := hne '[' (by decide)
    have h2 := hne '\x7b' (by decide)
    have h3 := hne '"' (by decide)
    have h4 := hne 't' (by decide)
    have h5 := hne 'f' (by decide)
    have h6 := hne 'n' (by decide)
    have hsplit := takeWhile_append_stop (a :: t) c tail hall hc
    simp only [List.cons_append] at hsplit
    simp only [parseValue, List.cons_append, skipWs_stop a _ hws, h1, h2, h3, h4, h5, h6,
      if_false, hsplit.1, hsplit.2, hv, if_true]

theorem parseValue_str (fuel : Nat) (s : GoString) (tail : List Char) :
    parseValue (fuel + 1) (encodeString s ++ tail) = some (JSON.str s, tail) := by
  have hlen : s.length < (s.flatMap escapeChar ++ '"' :: tail).length := by
    have := length_escape_ge s
    simp only [List.length_append, List.length_cons]
    omega
  have hq : skipWs ('"' :: (s.flatMap escapeChar ++ '"' :: tail)) =
      '"' :: (s.flatMap escapeChar ++ '"' :: tail) := skipWs_stop _ _ (by decide)
  have hu := unquoteBody_escape s _ tail hlen
  have h1 : ¬ ('"' = '[') := by decide
  have h2 : ¬ ('"' = '\x7b') := by decide
  simp only [encodeString, List.cons_append, List.append_assoc, List.nil_append, parseValue, hq,
    h1, h2, if_false, if_true, hu, Option.map_some']

/-- A member that is not the last one of its object. -/
theorem parseMembers_member (fuel : Nat) (key : GoString) (text : List Char) (v : JSON)
    (more : List Char)
    (hv : parseValue fuel (text ++ ',' :: more) = some (v, ',' :: more)) :
    parseMembers (fuel + 1) (encodeMember key text ++ ',' :: more) =
      (parseMembers fuel more).map fun p => ((key, v) :: p.1, p.2) := by
  have hlen : key.length <
      (key.flatMap escapeChar ++ '"' :: ':' :: ' ' :: (text ++ ',' :: more)).length := by
    have := length_escape_ge key
    simp only [List.length_append, List.length_cons]
    omega
  have hu := unquoteBody_escape key _ (':' :: ' ' :: (text ++ ',' :: more)) hlen
  have hsp : parseValue fuel (' ' :: (text ++ ',' :: more)) = some (v, ',' :: more) := by
    rw [parseValue_ws ' ' (by decide)]; exact hv
  have e1 : skipWs ('\n' :: ' ' :: ' ' :: '"' ::
      (key.flatMap escapeChar ++ '"' :: ':' :: ' ' :: (text ++ ',' :: more))) =
      '"' :: (key.flatMap escapeChar ++ '"' :: ':' :: ' ' :: (text ++ ',' :: more)) := by
    rw [skipWs_ws _ _ (by decide), skipWs_ws _ _ (by decide), skipWs_ws _ _ (by decide),
      skipWs_stop _ _ (by decide)]
  have e2 : skipWs (':' :: ' ' :: (text ++ ',' :: more)) = ':' :: ' ' :: (text ++ ',' :: more) :=
    skipWs_stop _ _ (by decide)
  have e3 : skipWs (',' :: more) = ',' :: more := skipWs_stop _ _ (by decide)
  have hshape : encodeMember key text ++ ',' :: more = '\n' :: ' ' :: ' ' :: '"' ::
      (key.flatMap escapeChar ++ '"' :: ':' :: ' ' :: (text ++ ',' :: more)) := by
    simp [encodeMember, encodeString]
  rw [hshape]
  simp only [parseMembers, e1, if_true, hu, e2, hsp, e3]

/-- The last member of an object of the indented array. -/
theorem parseMembers_last (fuel : Nat) (key : GoString) (text : List Char) (v : JSON)
    (tail : List Char)
    (hv : parseValue fuel (text ++ '\n' :: ' ' :: '\x7d' :: tail) =
      some (v, '\n' :: ' ' :: '\x7d' :: tail)) :
    parseMembers (fuel + 1) (encodeMember key text ++ '\n' :: ' ' :: '\x7d' :: tail) =
      some ([(key, v)], tail) := by
  have hlen : key.length < (key.flatMap escapeChar ++ '"' :: ':' :: ' ' ::
      (text ++ '\n' :: ' ' :: '\x7d' :: tail)).length := by
    have := length_escape_ge key
    simp only [List.length_append, List.length_cons]
    omega
  have hu := unquoteBody_escape key _ (':' :: ' ' :: (text ++ '\n' :: ' ' :: '\x7d' :: tail)) hlen
  have hsp : parseValue fuel (' ' :: (text ++ '\n' :: ' ' :: '\x7d' :: tail)) =
      some (v, '\n' :: ' ' :: '\x7d' :: tail) := by
    rw [parseValue_ws ' ' (by decide)]; exact hv
  have e1 : skipWs ('\n' :: ' ' :: ' ' :: '"' :: (key.flatMap escapeChar ++ '"' :: ':' :: ' ' ::
      (text ++ '\n' :: ' ' :: '\x7d' :: tail))) =
      '"' :: (key.flatMap escapeChar ++ '"' :: ':' :: ' ' ::
        (text ++ '\n' :: ' ' :: '\x7d' :: tail)) := by
    rw [skipWs_ws _ _ (by decide), skipWs_ws _ _ (by decide), skipWs_ws _ _ (by decide),
      skipWs_stop _ _ (by decide)]
  have e2 : skipWs (':' :: ' ' :: (text ++ '\n' :: ' ' :: '\x7d' :: tail)) =
      ':' :: ' ' :: (text ++ '\n' :: ' ' :: '\x7d' :: tail) := skipWs_stop _ _ (by decide)
  have e3 : skipWs ('\n' :: ' ' :: '\x7d' :: tail) = '\x7d' :: tail := by
    rw [skipWs_ws _ _ (by decide), skipWs_ws _ _ (by decide), skipWs_stop _ _ (by decide)]
  have hshape : encodeMember key text ++ '\n' :: ' ' :: '\x7d' :: tail = '\n' :: ' ' :: ' ' ::
      '"' :: (key.flatMap escapeChar ++ '"' :: ':' :: ' ' ::
        (text ++ '\n' :: ' ' :: '\x7d' :: tail)) := by
    simp [encodeMember, encodeString]
  have hne : ¬ ('\x7d' = ',') := by decide
  rw [hshape]
  simp only [parseMembers, e1, if_true, hu, e2, hsp, e3, hne, if_false]

theorem encodeMember_append (key : GoString) (text rest : List Char) :
    encodeMember key text ++ rest = '\n' :: ' ' :: ' ' :: '"' ::
      (key.flatMap escapeChar ++ '"' :: ':' :: ' ' :: (text ++ rest)) := by
  simp [encodeMember, encodeString]

theorem encodeExpense_append (fc : FloatFmt) (e : expense) (tail : List Char) :
    encodeExpense fc e ++ tail = ' ' :: '\x7b' ::
      (encodeMember "id".toList (formatInt e.ID) ++ ',' ::
      (encodeMember "date".toList (encodeString e.Date) ++ ',' ::
      (encodeMember "description".toList (encodeString e.Description) ++ ',' ::
      (encodeMember "amount".toList (fc.format e.Amount) ++ '\n' :: ' ' :: '\x7d' :: tail)))) := by
  simp [encodeExpense]

/-- The text of a record reads as the JSON object of its four members. -/
theorem parseValue_encodeExpense (fc : FloatFmt) (e : expense) (hfin : e.Amount.isFinite = true)
    (fuel : Nat) (tail : List Char) :
    parseValue (fuel + 6) (encodeExpense fc e ++ tail) = some (toJSON fc e, tail) := by
  have m4 := parseMembers_last (fuel + 1) "amount".toList (fc.format e.Amount)
    (JSON.num (fc.format e.Amount)) tail
    (parseValue_num fuel _ '\n' _ (fc.format_valid _ hfin) (by decide))
  have m3 := parseMembers_member (fuel + 2) "description".toList (encodeString e.Description)
    (JSON.str e.Description)
    (encodeMember "amount".toList (fc.format e.Amount) ++ '\n' :: ' ' :: '\x7d' :: tail)
    (parseValue_str (fuel + 1) _ _)
  have m2 := parseMembers_member (fuel + 3) "date".toList (encodeString e.Date)
    (JSON.str e.Date)
    (encodeMember "description".toList (encodeString e.Description) ++ ',' ::
      (encodeMember "amount".toList (fc.format e.Amount) ++ '\n' :: ' ' :: '\x7d' :: tail))
    (parseValue_str (fuel + 2) _ _)
  have m1 := parseMembers_member (fuel + 4) "id".toList (formatInt e.ID)
    (JSON.num (formatInt e.ID))
    (encodeMember "date".toList (encodeString e.Date) ++ ',' ::
      (encodeMember "description".toList (encodeString e.Description) ++ ',' ::
      (encodeMember "amount".toList (fc.format e.Amount) ++ '\n' :: ' ' :: '\x7d' :: tail)))
    (parseValue_num (fuel + 3) _ ',' _ (validNumber_formatInt e.ID) (by decide))
  rw [m4] at m3
  rw [m3] at m2
  rw [m2] at m1
  rw [encodeExpense_append]
  have e0 : ∀ cs : List Char, skipWs (' ' :: '\x7b' :: cs) = '\x7b' :: cs := by
    intro cs
    rw [skipWs_ws _ _ (by decide), skipWs_stop _ _ (by decide)]
  have e1 : ∀ (k t r : List Char), skipWs (encodeMember k t ++ r) =
      '"' :: (k.flatMap escapeChar ++ '"' :: ':' :: ' ' :: (t ++ r)) := by
    intro k t r
    rw [encodeMember_append, skipWs_ws _ _ (by decide), skipWs_ws _ _ (by decide),
      skipWs_ws _ _ (by decide), skipWs_stop _ _ (by decide)]
  have hne1 : ¬ ('\x7b' = '[') := by decide
  have hne2 : ¬ ('"' = '\x7d') := by decide
  simp only [parseValue, e0, e1, hne1, hne2, if_false, if_true, m1, Option.map_some', toJSON]

theorem parseElems_ws (w : Char) (h : isWs w = true) (fuel : Nat) (cs : List Char) :
    parseElems fuel (w :: cs) = parseElems fuel cs := by
  cases fuel with
  | zero => simp [parseElems]
  | succ f => simp only [parseElems, parseValue_ws w h]

theorem encodeElems_cons_cons (fc : FloatFmt) (e e1 : expense) (L : List expense) :
    encodeElems fc (e :: e1 :: L) =
      encodeExpense fc e ++ ',' :: '\n' :: encodeElems fc (e1 :: L) := by
  simp [encodeElems]

theorem parseElems_more (fuel : Nat) (cs rest : List Char) (v : JSON)
    (h : parseValue fuel cs = some (v, ',' :: rest)) :
    parseElems (fuel + 1) cs = (parseElems fuel rest).map fun p => (v :: p.1, p.2) := by
  have e3 : skipWs (',' :: rest) = ',' :: rest := skipWs_stop _ _ (by decide)
  simp only [parseElems, h, e3, if_true]

theorem parseElems_last (fuel : Nat) (cs rest : List Char) (v : JSON)
    (h : parseValue fuel cs = some (v, '\n' :: ']' :: rest)) :
    parseElems (fuel + 1) cs = some ([v], rest) := by
  have e3 : skipWs ('\n' :: ']' :: rest) = ']' :: rest := by
    rw [skipWs_ws _ _ (by decide), skipWs_stop _ _ (by decide)]
  have hne : ¬ (']' = ',') := by decide
  simp only [parseElems, h, e3, hne, if_false, if_true]

/-- The elements of the indented array read as the JSON objects of the records. -/
theorem parseElems_encodeElems (fc : FloatFmt) (L : List expense) : ∀ (e : expense) (fuel : Nat)
    (tail : List Char), (∀ x ∈ e :: L, x.Amount.isFinite = true) → L.length + 7 ≤ fuel →
    parseElems fuel (encodeElems fc (e :: L) ++ '\n' :: ']' :: tail) =
      some ((e :: L).map (toJSON fc), tail) := by
  induction L with
  | nil =>
    intro e fuel tail hfin hfuel
    obtain ⟨f, rfl⟩ : ∃ f, fuel = f + 6 + 1 := ⟨fuel - 7, by simp at hfuel; omega⟩
    have hv := parseValue_encodeExpense fc e (hfin e (by simp)) f ('\n' :: ']' :: tail)
    have : encodeElems fc [e] = encodeExpense fc e := rfl
    rw [this, parseElems_last _ _ _ _ hv]
    rfl
  | cons e1 L ih =>
    intro e fuel tail hfin hfuel
    obtain ⟨f, rfl⟩ : ∃ f, fuel = f + 6 + 1 := ⟨fuel - 7, by simp at hfuel; omega⟩
    have hv := parseValue_encodeExpense fc e (hfin e (by simp)) f
      (',' :: '\n' :: (encodeElems fc (e1 :: L) ++ '\n' :: ']' :: tail))
    have hrec := ih e1 (f + 6) tail (fun x hx => hfin x (by simp at hx ⊢; tauto))
      (by simp at hfuel; omega)
    rw [encodeElems_cons_cons]
    simp only [List.append_assoc, List.cons_append]
    rw [parseElems_more _ _ _ _ hv, parseElems_ws '\n' (by decide), hrec]
    rfl

theorem length_encodeExpense (fc : FloatFmt) (e : expense) : 8 ≤ (encodeExpense fc e).length := by
  simp [encodeExpense, encodeMember, encodeString]
  omega

theorem length_encodeElems (fc : FloatFmt) (L : List expense) :
    8 * L.length ≤ (encodeElems fc L).length := by
  induction L with
  | nil => simp
  | cons e L ih =>
    cases L with
    | nil =>
      have := length_encodeExpense fc e
      simpa [encodeElems] using this
    | cons e1 L =>
      have := length_encodeExpense fc e
      rw [encodeElems_cons_cons]
      simp only [List.length_append, List.length_cons] at ih ⊢
      omega

theorem encodeElems_head (fc : FloatFmt) (e : expense) (L : List expense) :
    ∃ s, encodeElems fc (e :: L) = encodeExpense fc e ++ s := by
  cases L with
  | nil => exact ⟨[], by simp [encodeElems]⟩
  | cons e1 L => exact ⟨',' :: '\n' :: encodeElems fc (e1 :: L), encodeElems_cons_cons fc e e1 L⟩

theorem setFields_toJSON (fc : FloatFmt) (e : expense) (hfin : e.Amount.isFinite = true) :
    decodeExpense fc (toJSON fc e) = .ok e := by
  have k1 : List.map foldChar "id".toList = "id".toList := by decide
  have k2 : List.map foldChar "date".toList = "date".toList := by decide
  have k3 : List.map foldChar "description".toList = "description".toList := by decide
  have k4 : List.map foldChar "amount".toList = "amount".toList := by decide
  have n21 : ¬ ("date".toList = "id".toList) := by decide
  have n31 : ¬ ("description".toList = "id".toList) := by decide
  have n32 : ¬ ("description".toList = "date".toList) := by decide
  have n41 : ¬ ("amount".toList = "id".toList) := by decide
  have n42 : ¬ ("amount".toList = "date".toList) := by decide
  have n43 : ¬ ("amount".toList = "description".toList) := by decide
  simp only [decodeExpense, toJSON, setFields, setField, k1, k2, k3, k4, n21, n31, n32, n41, n42,
    n43, if_true, if_false, setID, setDate, setDescription, setAmount, parseInt_formatInt,
    fc.parse_format _ hfin, zeroExpense]

theorem decodeAll_toJSON (fc : FloatFmt) (L : List expense)
    (hfin : ∀ x ∈ L, x.Amount.isFinite = true) :
    decodeAll fc (L.map (toJSON fc)) = .ok L := by
  induction L with
  | nil => rfl
  | cons e L ih =>
    simp only [List.map_cons, decodeAll, setFields_toJSON fc e (hfin e (by simp)),
      ih (fun x hx => hfin x (by simp [hx]))]

/-- What `json.MarshalIndent` writes for records with finite amounts, `json.Unmarshal`
reads back as the same records. -/
theorem jsonUnmarshal_marshal (fc : FloatFmt) (L : List expense)
    (hfin : ∀ x ∈ L, x.Amount.isFinite = true) :
    ∃ data, jsonMarshalIndent fc L = .ok data ∧ data.length ≠ 0 ∧
      jsonUnmarshal fc data = .ok L := by
  have hall : L.all (fun e => e.Amount.isFinite) = true := by
    simpa [List.all_eq_true] using hfin
  cases L with
  | nil =>
    refine ⟨"[]".toList, by simp [jsonMarshalIndent], by decide, ?_⟩
    have : parseJSON "[]".toList = some (JSON.arr []) := rfl
    simp only [jsonUnmarshal, this, decodeAll]
  | cons e L =>
    refine ⟨"[\n".toList ++ encodeElems fc (e :: L) ++ "\n]".toList, ?_, by simp, ?_⟩
    · simp only [jsonMarshalIndent, hall, if_true]
    · obtain ⟨s, hs⟩ := encodeElems_head fc e L
      have hlen := length_encodeElems fc (e :: L)
      have hshape : "[\n".toList ++ encodeElems fc (e :: L) ++ "\n]".toList =
          '[' :: '\n' :: (encodeElems fc (e :: L) ++ '\n' :: ']' :: []) := by simp
      have hp := parseElems_encodeElems fc L e
        ('[' :: '\n' :: (encodeElems fc (e :: L) ++ '\n' :: ']' :: [])).length [] hfin
        (by simp only [List.length_append, List.length_cons] at hlen ⊢
            omega)
      have e0 : ∀ cs : List Char, skipWs ('[' :: cs) = '[' :: cs :=
        fun cs => skipWs_stop _ _ (by decide)
      have e1 : ∃ t, skipWs ('\n' :: (encodeElems fc (e :: L) ++ '\n' :: ']' :: [])) =
          '\x7b' :: t := by
        refine ⟨(skipWs ('\n' :: (encodeElems fc (e :: L) ++ '\n' :: ']' :: []))).tail, ?_⟩
        rw [hs, List.append_assoc, encodeExpense_append, skipWs_ws _ _ (by decide),
          skipWs_ws _ _ (by decide), skipWs_stop _ _ (by decide)]
        rfl
      obtain ⟨t, e1⟩ := e1
      have hne : ¬ ('\x7b' = ']') := by decide
      rw [hshape]
      have hparse : parseJSON ('[' :: '\n' :: (encodeElems fc (e :: L) ++ '\n' :: ']' :: [])) =
          some (JSON.arr ((e :: L).map (toJSON fc))) := by
        simp only [parseJSON, parseValue, e0, if_true, e1, hne, if_false]
        rw [parseElems_ws '\n' (by decide), hp]
        simp [skipWs]
      simp only [jsonUnmarshal, hparse]
      exact decodeAll_toJSON fc (e :: L) hfin

/-! ## The store -/

theorem readFile_store (fc : FloatFmt) (st : Store) : (readFile fc st).2 = some (st.getD []) := by
  unfold readFile
  dsimp only
  split <;> rfl

theorem ledgerOf_opened (fc : FloatFmt) (st : Store) :
    ledgerOf fc (some (st.getD [])) = ledgerOf fc st := by
  cases st <;> rfl

theorem readFile_eq (fc : FloatFmt) (st : Store) :
    readFile fc st = (ledgerOf fc st, some (st.getD [])) := by
  rw [← readFile_store fc st]
  rfl

theorem isFinite_posZero : F64.posZero.isFinite = true := by decide

theorem setField_finite (fc : FloatFmt) (e e1 : expense) (key : GoString) (v : JSON)
    (h : setField fc e key v = .ok e1) (hf : e.Amount.isFinite = true) :
    e1.Amount.isFinite = true := by
  unfold setField at h
  dsimp only at h
  split at h
  · cases v <;> simp only [setID] at h
    · cases h; exact hf
    · cases h
    · split at h
      · cases h; exact hf
      · cases h
    · cases h
    · cases h
    · cases h
  split at h
  · cases v <;> simp only [setDate] at h
    · cases h; exact hf
    · cases h
    · cases h
    · cases h; exact hf
    · cases h
    · cases h
  split at h
  · cases v <;> simp only [setDescription] at h
    · cases h; exact hf
    · cases h
    · cases h
    · cases h; exact hf
    · cases h
    · cases h
  split at h
  · cases v <;> simp only [setAmount] at h
    · cases h; exact hf
    · cases h
    · split at h
      · rename_i x hx
        cases h
        exact fc.parse_finite _ _ hx
      · cases h
    · cases h
    · cases h
    · cases h
  · cases h; exact hf

theorem setFields_finite (fc : FloatFmt) (ms : List (GoString × JSON)) : ∀ (e e1 : expense),
    setFields fc e ms = .ok e1 → e.Amount.isFinite = true → e1.Amount.isFinite = true := by
  induction ms with
  | nil =>
    intro e e1 h hf
    simp only [setFields] at h
    cases h
    exact hf
  | cons m ms ih =>
    intro e e1 h hf
    obtain ⟨key, v⟩ := m
    simp only [setFields] at h
    split at h
    · cases h
    · rename_i e2 h2
      exact ih e2 e1 h (setField_finite fc e e2 key v h2 hf)

theorem decodeExpense_finite (fc : FloatFmt) (v : JSON) (e : expense)
    (h : decodeExpense fc v = .ok e) : e.Amount.isFinite = true := by
  unfold decodeExpense at h
  split at h
  · exact setFields_finite fc _ _ _ h isFinite_posZero
  · cases h; exact isFinite_posZero
  · cases h

theorem decodeAll_finite (fc : FloatFmt) (vs : List JSON) : ∀ (L : List expense),
    decodeAll fc vs = .ok L → ∀ e ∈ L, e.Amount.isFinite = true := by
  induction vs with
  | nil =>
    intro L h e he
    simp only [decodeAll] at h
    cases h
    simp at he
  | cons v vs ih =>
    intro L h e he
    simp only [decodeAll] at h
    split at h
    · cases h
    · rename_i e0 h0
      split at h
      · cases h
      · rename_i es hes
        cases h
        simp only [List.mem_cons] at he
        rcases he with he | he
        · subst he; exact decodeExpense_finite fc v _ h0
        · exact ih es hes e he

/-- No record of a ledger that was read has a NaN or infinite amount. -/
theorem ledgerOf_finite (fc : FloatFmt) (st : Store) (L : List expense)
    (h : ledgerOf fc st = .ok L) : ∀ e ∈ L, e.Amount.isFinite = true := by
  unfold ledgerOf readFile at h
  dsimp only at h
  split at h
  · cases h; simp
  · unfold jsonUnmarshal at h
    split at h
    · cases h
    · exact decodeAll_finite fc _ L h
    · cases h; simp
    · cases h

theorem writeFile_ok (fc : FloatFmt) (L : List expense) (st : Store)
    (hfin : ∀ e ∈ L, e.Amount.isFinite = true) :
    (writeFile fc L st).1 = none ∧ ledgerOf fc (writeFile fc L st).2 = .ok L := by
  obtain ⟨data, h1, h2, h3⟩ := jsonUnmarshal_marshal fc L hfin
  simp only [writeFile, h1, ledgerOf, readFile, Option.getD_some, h2, if_false, h3, and_self]

theorem writeFile_err (fc : FloatFmt) (L : List expense) (st : Store)
    (hinf : ∃ e ∈ L, e.Amount.isFinite = false) :
    writeFile fc L st = (some Err.unsupportedValue, st) := by
  have hall : ¬ (L.all (fun e => e.Amount.isFinite) = true) := by
    simp only [List.all_eq_true, not_forall]
    obtain ⟨e, he, hf⟩ := hinf
    exact ⟨e, he, by simp [hf]⟩
  have hall2 : (L.all (fun e => e.Amount.isFinite)) = false := by
    simpa using hall
  simp only [writeFile, jsonMarshalIndent, hall2, Bool.false_eq_true, if_false]

/-! ## The loops of `update` and `delete` -/

theorem deleteFirst_eq_some (id : GoInt) (L L1 : List expense) (h : deleteFirst id L = some L1) :
    ∃ pre e post, L = pre ++ e :: post ∧ e.ID = id ∧ (∀ x ∈ pre, x.ID ≠ id) ∧
      L1 = pre ++ post := by
  induction L generalizing L1 with
  | nil => simp [deleteFirst] at h
  | cons t rest ih =>
    simp only [deleteFirst] at h
    split at h
    · rename_i ht
      cases h
      exact ⟨[], t, rest, rfl, ht, by simp, rfl⟩
    · rename_i ht
      cases hr : deleteFirst id rest with
      | none => simp [hr] at h
      | some r =>
        simp only [hr, Option.map_some', Option.some.injEq] at h
        obtain ⟨pre, e, post, h1, h2, h3, h4⟩ := ih r hr
        refine ⟨t :: pre, e, post, by simp [h1], h2, ?_, by simp [← h, h4]⟩
        intro x hx
        simp only [List.mem_cons] at hx
        rcases hx with hx | hx
        · subst hx; exact ht
        · exact h3 x hx

theorem deleteFirst_eq_none (id : GoInt) (L : List expense) :
    deleteFirst id L = none ↔ ∀ e ∈ L, e.ID ≠ id := by
  induction L with
  | nil => simp [deleteFirst]
  | cons t rest ih =>
    simp only [deleteFirst]
    split
    · rename_i ht
      simp only [reduceCtorEq, List.mem_cons, ne_eq, forall_eq_or_imp, false_iff, not_and]
      intro h
      exact absurd ht h
    · rename_i ht
      simp only [Option.map_eq_none', ih, List.mem_cons, ne_eq, forall_eq_or_imp, ht,
        not_false_eq_true, true_and]

theorem updateFirst_eq_some (id : GoInt) (d : GoString) (a : F64) (L L1 : List expense)
    (h : updateFirst id d a L = some L1) :
    ∃ pre e post, L = pre ++ e :: post ∧ e.ID = id ∧ (∀ x ∈ pre, x.ID ≠ id) ∧
      L1 = pre ++ ⟨e.ID, e.Date, d, a⟩ :: post := by
  induction L generalizing L1 with
  | nil => simp [updateFirst] at h
  | cons t rest ih =>
    simp only [updateFirst] at h
    split at h
    · rename_i ht
      cases h
      exact ⟨[], t, rest, rfl, ht, by simp, rfl⟩
    · rename_i ht
      cases hr : updateFirst id d a rest with
      | none => simp [hr] at h
      | some r =>
        simp only [hr, Option.map_some', Option.some.injEq] at h
        obtain ⟨pre, e, post, h1, h2, h3, h4⟩ := ih r hr
        refine ⟨t :: pre, e, post, by simp [h1], h2, ?_, by simp [← h, h4]⟩
        intro x hx
        simp only [List.mem_cons] at hx
        rcases hx with hx | hx
        · subst hx; exact ht
        · exact h3 x hx

theorem updateFirst_eq_none (id : GoInt) (d : GoString) (a : F64) (L : List expense) :
    updateFirst id d a L = none ↔ ∀ e ∈ L, e.ID ≠ id := by
  induction L with
  | nil => simp [updateFirst]
  | cons t rest ih =>
    simp only [updateFirst]
    split
    · rename_i ht
      simp only [reduceCtorEq, List.mem_cons, ne_eq, forall_eq_or_imp, false_iff, not_and]
      intro h
      exact absurd ht h
    · rename_i ht
      simp only [Option.map_eq_none', ih, List.mem_cons, ne_eq, forall_eq_or_imp, ht,
        not_false_eq_true, true_and]

/-! ## The operations on a store whose ledger is known -/

theorem add_readError (fc : FloatFmt) (now : Clock) (d : GoString) (a : F64) (st : Store)
    (err : Err) (h : ledgerOf fc st = .error err) :
    add fc now d a st = ⟨some err, some (st.getD []), []⟩ := by
  simp only [add, readFile_eq, h]

theorem add_full (fc : FloatFmt) (now : Clock) (d : GoString) (a : F64) (st : Store)
    (L : List expense) (h : ledgerOf fc st = .ok L) (hlen : ¬ L.length < maxInt) :
    add fc now d a st = ⟨some Err.lenOutOfRange, some (st.getD []), []⟩ := by
  simp only [add, readFile_eq, h, goAppend, hlen, if_false]

theorem add_unsupported (fc : FloatFmt) (now : Clock) (d : GoString) (a : F64) (st : Store)
    (L : List expense) (h : ledgerOf fc st = .ok L) (hlen : L.length < maxInt)
    (ha : a.isFinite = false) :
    add fc now d a st = ⟨some Err.unsupportedValue, some (st.getD []), []⟩ := by
  have hw := writeFile_err fc (L ++ [⟨getID L, formatDate now, d, a⟩]) (some (st.getD []))
    ⟨⟨getID L, formatDate now, d, a⟩, by simp, ha⟩
  simp only [add, readFile_eq, h, goAppend, hlen, if_true, hw]

theorem add_ok (fc : FloatFmt) (now : Clock) (d : GoString) (a : F64) (st : Store)
    (L : List expense) (h : ledgerOf fc st = .ok L) (hlen : L.length < maxInt)
    (ha : a.isFinite = true) :
    (add fc now d a st).err = none ∧ (add fc now d a st).out = [Line.added (getID L)] ∧
      ledgerOf fc (add fc now d a st).store = .ok (L ++ [⟨getID L, formatDate now, d, a⟩]) := by
  have hfin : ∀ e ∈ L ++ [⟨getID L, formatDate now, d, a⟩], e.Amount.isFinite = true := by
    intro e he
    rcases List.mem_append.1 he with he | he
    · exact ledgerOf_finite fc st L h e he
    · simp at he; subst he; exact ha
  obtain ⟨w1, w2⟩ := writeFile_ok fc _ (some (st.getD [])) hfin
  have hw : writeFile fc (L ++ [⟨getID L, formatDate now, d, a⟩]) (some (st.getD [])) =
      (none, (writeFile fc (L ++ [⟨getID L, formatDate now, d, a⟩]) (some (st.getD []))).2) := by
    rw [← w1]
  simp only [add, readFile_eq, h, goAppend, hlen, if_true]
  rw [hw]
  exact ⟨rfl, rfl, w2⟩

/-- What a successful call of `add` found and did. -/
theorem add_success (fc : FloatFmt) (now : Clock) (d : GoString) (a : F64) (st : Store)
    (h : (add fc now d a st).err = none) :
    ∃ L, ledgerOf fc st = .ok L ∧ L.length < maxInt ∧ a.isFinite = true := by
  cases hL : ledgerOf fc st with
  | error err => rw [add_readError fc now d a st err hL] at h; cases h
  | ok L =>
    by_cases hlen : L.length < maxInt
    · cases ha : a.isFinite with
      | true => exact ⟨L, rfl, hlen, rfl⟩
      | false => rw [add_unsupported fc now d a st L hL hlen ha] at h; cases h
    · rw [add_full fc now d a st L hL hlen] at h; cases h

theorem delete_readError (fc : FloatFmt) (id : GoInt) (st : Store) (err : Err)
    (h : ledgerOf fc st = .error err) :
    delete fc id st = ⟨some err, some (st.getD []), []⟩ := by
  simp only [delete, readFile_eq, h]

theorem delete_notFound (fc : FloatFmt) (id : GoInt) (st : Store) (L : List expense)
    (h : ledgerOf fc st = .ok L) (hid : ∀ e ∈ L, e.ID ≠ id) :
    delete fc id st = ⟨some (Err.deleteNotFound id), some (st.getD []), []⟩ := by
  simp only [delete, readFile_eq, h, (deleteFirst_eq_none id L).2 hid]

theorem delete_found (fc : FloatFmt) (id : GoInt) (st : Store) (L L1 : List expense)
    (h : ledgerOf fc st = .ok L) (hd : deleteFirst id L = some L1) :
    (delete fc id st).err = none ∧ (delete fc id st).out = [Line.deleted id] ∧
      ledgerOf fc (delete fc id st).store = .ok L1 := by
  obtain ⟨pre, e, post, h1, _, _, h4⟩ := deleteFirst_eq_some id L L1 hd
  have hfin : ∀ x ∈ L1, x.Amount.isFinite = true := by
    intro x hx
    refine ledgerOf_finite fc st L h x ?_
    rw [h4] at hx
    rw [h1]
    simp only [List.mem_append, List.mem_cons] at hx ⊢
    tauto
  obtain ⟨w1, w2⟩ := writeFile_ok fc L1 (some (st.getD [])) hfin
  have hw : writeFile fc L1 (some (st.getD [])) =
      (none, (writeFile fc L1 (some (st.getD []))).2) := by
    rw [← w1]
  simp only [delete, readFile_eq, h, hd]
  rw [hw]
  exact ⟨rfl, rfl, w2⟩

theorem update_readError (fc : FloatFmt) (id : GoInt) (d : GoString) (a : F64) (st : Store)
    (err : Err) (h : ledgerOf fc st = .error err) :
    update fc id d a st = ⟨some err, some (st.getD []), []⟩ := by
  simp only [update, readFile_eq, h]

theorem update_notFound (fc : FloatFmt) (id : GoInt) (d : GoString) (a : F64) (st : Store)
    (L : List expense) (h : ledgerOf fc st = .ok L) (hid : ∀ e ∈ L, e.ID ≠ id) :
    update fc id d a st = ⟨some (Err.updateNotFound id), some (st.getD []), []⟩ := by
  simp only [update, readFile_eq, h, (updateFirst_eq_none id d a L).2 hid]

theorem update_unsupported (fc : FloatFmt) (id : GoInt) (d : GoString) (a : F64) (st : Store)
    (L L1 : List expense) (h : ledgerOf fc st = .ok L) (hu : updateFirst id d a L = some L1)
    (ha : a.isFinite = false) :
    update fc id d a st = ⟨some Err.unsupportedValue, some (st.getD []), []⟩ := by
  obtain ⟨pre, e, post, _, _, _, h4⟩ := updateFirst_eq_some id d a L L1 hu
  have hw := writeFile_err fc L1 (some (st.getD [])) ⟨⟨e.ID, e.Date, d, a⟩, by simp [h4], ha⟩
  simp only [update, readFile_eq, h, hu, hw]

theorem update_found (fc : FloatFmt) (id : GoInt) (d : GoString) (a : F64) (st : Store)
    (L L1 : List expense) (h : ledgerOf fc st = .ok L) (hu : updateFirst id d a L = some L1)
    (ha : a.isFinite = true) :
    (update fc id d a st).err = none ∧ (update fc id d a st).out = [Line.updated id] ∧
      ledgerOf fc (update fc id d a st).store = .ok L1 := by
  obtain ⟨pre, e, post, h1, _, _, h4⟩ := updateFirst_eq_some id d a L L1 hu
  have hfin : ∀ x ∈ L1, x.Amount.isFinite = true := by
    intro x hx
    rw [h4] at hx
    simp only [List.mem_append, List.mem_cons] at hx
    rcases hx with hx | hx | hx
    · exact ledgerOf_finite fc st L h x (by rw [h1]; simp [hx])
    · subst hx; exact ha
    · exact ledgerOf_finite fc st L h x (by rw [h1]; simp [hx])
  obtain ⟨w1, w2⟩ := writeFile_ok fc L1 (some (st.getD [])) hfin
  have hw : writeFile fc L1 (some (st.getD [])) =
      (none, (writeFile fc L1 (some (st.getD []))).2) := by
    rw [← w1]
  simp only [update, readFile_eq, h, hu]
  rw [hw]
  exact ⟨rfl, rfl, w2⟩

/-! ## Exact rounding -/

theorem log2Fuel_eq (m : Nat) : ∀ (f n : Nat), 2 ^ m ≤ n → n < 2 ^ (m + 1) → m < f →
    log2Fuel f n = m := by
  induction m with
  | zero =>
    intro f n h1 h2 hf
    obtain ⟨f, rfl⟩ : ∃ g, f = g + 1 := ⟨f - 1, by omega⟩
    have : n < 2 := by simpa using h2
    simp [log2Fuel, this]
  | succ m ih =>
    intro f n h1 h2 hf
    obtain ⟨f, rfl⟩ : ∃ g, f = g + 1 := ⟨f - 1, by omega⟩
    have hp : 2 ^ (m + 1) = 2 * 2 ^ m := by rw [pow_succ]; ring
    have hp2 : 2 ^ (m + 1 + 1) = 2 * 2 ^ (m + 1) := by rw [pow_succ]; ring
    have hpos : 0 < 2 ^ m := Nat.two_pow_pos _
    have hn : ¬ n < 2 := by omega
    have := ih f (n / 2) (by omega) (by omega) (by omega)
    simp [log2Fuel, hn, this]

theorem log2Fuel_le (m : Nat) : ∀ (f n : Nat), n < 2 ^ (m + 1) → log2Fuel f n ≤ m := by
  induction m with
  | zero =>
    intro f n h2
    have : n < 2 := by simpa using h2
    cases f with
    | zero => simp [log2Fuel]
    | succ f => simp [log2Fuel, this]
  | succ m ih =>
    intro f n h2
    cases f with
    | zero => simp [log2Fuel]
    | succ f =>
      have hp2 : 2 ^ (m + 1 + 1) = 2 * 2 ^ (m + 1) := by rw [pow_succ]; ring
      by_cases hn : n < 2
      · simp [log2Fuel, hn]
      · have := ih f (n / 2) (by omega)
        simp only [log2Fuel, hn, if_false]
        omega

theorem lt_two_pow_self (m : Nat) : m < 2 ^ m := Nat.lt_two_pow m

/-- Rounding an exactly representable magnitude gives back its bit pattern. -/
theorem roundUnits_exact (e m : Nat) (hm : m < 2 ^ 52) :
    roundUnits (4 * (if e = 0 then m else (2 ^ 52 + m) * 2 ^ (e - 1))) false =
      e * 2 ^ 52 + m := by
  by_cases he : e = 0
  · subst he
    simp only [if_true]
    have hs : log2Fuel (4 * m) (4 * m) - 54 = 0 := by
      have := log2Fuel_le 54 (4 * m) (4 * m) (by norm_num at hm ⊢; omega)
      omega
    have hq : 4 * m / 2 ^ (0 + 2) = m := by norm_num
    have hl : 4 * m % 2 ^ (0 + 2) = 0 := by norm_num
    simp only [roundUnits, hs, hq, hl]
    norm_num
  · simp only [he, if_false]
    obtain ⟨k, rfl⟩ : ∃ k, e = k + 1 := ⟨e - 1, by omega⟩
    simp only [Nat.add_sub_cancel]
    have ht : 4 * ((2 ^ 52 + m) * 2 ^ k) = (2 ^ 52 + m) * 2 ^ (k + 2) := by
      rw [pow_add]; ring
    have hpos : 0 < 2 ^ (k + 2) := Nat.two_pow_pos _
    have hlo : 2 ^ (k + 54) ≤ (2 ^ 52 + m) * 2 ^ (k + 2) := by
      have : 2 ^ (k + 54) = 2 ^ 52 * 2 ^ (k + 2) := by rw [← pow_add]; congr 1; omega
      rw [this]
      exact Nat.mul_le_mul_right _ (by omega)
    have hhi : (2 ^ 52 + m) * 2 ^ (k + 2) < 2 ^ (k + 54 + 1) := by
      have : 2 ^ (k + 54 + 1) = 2 ^ 53 * 2 ^ (k + 2) := by rw [← pow_add]; congr 1; omega
      rw [this]
      exact Nat.mul_lt_mul_of_pos_right (by norm_num at hm ⊢; omega) hpos
    have hlog := log2Fuel_eq (k + 54) ((2 ^ 52 + m) * 2 ^ (k + 2)) ((2 ^ 52 + m) * 2 ^ (k + 2))
      hlo hhi (lt_of_lt_of_le (lt_two_pow_self _) hlo)
    have hs : log2Fuel ((2 ^ 52 + m) * 2 ^ (k + 2)) ((2 ^ 52 + m) * 2 ^ (k + 2)) - 54 = k := by
      rw [hlog]; omega
    have hq : (2 ^ 52 + m) * 2 ^ (k + 2) / 2 ^ (k + 2) = 2 ^ 52 + m :=
      Nat.mul_div_cancel _ hpos
    have hl : (2 ^ 52 + m) * 2 ^ (k + 2) % 2 ^ (k + 2) = 0 := Nat.mul_mod_left _ _
    have hhalf : 0 < 2 ^ (k + 1) := Nat.two_pow_pos _
    have h1 : decide (2 ^ (k + 1) < 0) = false := by simp
    have h2 : ((0 : Nat) == 2 ^ (k + 1)) = false := by
      rw [beq_eq_false_iff_ne]; omega
    rw [ht]
    simp only [roundUnits, hs, hq, hl, h1, h2, Bool.false_and, Bool.or_self, Bool.false_eq_true,
      if_false]
    ring

theorem F64.bits_eq (x : F64) :
    x.bits = (if x.sign then 2 ^ 63 else 0) + (x.expo * 2 ^ 52 + x.frac) := by
  have := x.lt
  simp only [F64.sign, F64.expo, F64.frac, decide_eq_true_eq]
  norm_num at this ⊢
  split <;> omega

theorem F64.frac_lt (x : F64) : x.frac < 2 ^ 52 := Nat.mod_lt _ (by decide)

theorem F64.expo_lt_of_finite (x : F64) (h : x.isFinite = true) : x.expo < 2047 := by
  have h1 : x.expo < 2048 := Nat.mod_lt _ (by decide)
  simp only [F64.isFinite, bne_iff_ne, ne_eq] at h
  omega

theorem roundUnits_mag (x : F64) :
    roundUnits (4 * x.mag) false = x.expo * 2 ^ 52 + x.frac :=
  roundUnits_exact x.expo x.frac x.frac_lt

theorem F64.ext_bits {a b : F64} (h : a.bits = b.bits) : a = b := by
  cases a; cases b; simp only at h; subst h; rfl

theorem F64.ofBits_bits (x : F64) : F64.ofBits x.bits = x :=
  F64.ext_bits (Nat.mod_eq_of_lt x.lt)

theorem isFinite_ofBits (sgn b : Nat) (hs : sgn = 0 ∨ sgn = 2 ^ 63) (hb : b < 2047 * 2 ^ 52) :
    (F64.ofBits (sgn + b)).isFinite = true := by
  simp only [F64.isFinite, F64.expo, F64.ofBits, bne_iff_ne, ne_eq]
  norm_num at hb hs ⊢
  rcases hs with hs | hs <;> subst hs <;> omega

/-! ## Decimal expansions -/

theorem foldl_dec (b : List Char) : ∀ v : Nat,
    b.foldl (fun v c => 10 * v + (c.toNat - 48)) v =
      v * 10 ^ b.length + b.foldl (fun v c => 10 * v + (c.toNat - 48)) 0 := by
  induction b with
  | nil => intro v; simp
  | cons c b ih =>
    intro v
    simp only [List.foldl_cons, List.length_cons]
    rw [ih (10 * v + (c.toNat - 48)), ih (10 * 0 + (c.toNat - 48))]
    rw [pow_succ]
    ring

theorem decToNat_append (a b : List Char) :
    decToNat (a ++ b) = decToNat a * 10 ^ b.length + decToNat b := by
  simp only [decToNat, List.foldl_append]
  exact foldl_dec b _

theorem fixedDigits_length (w : Nat) : ∀ n, (fixedDigits w n).length = w := by
  induction w with
  | zero => intro n; rfl
  | succ w ih => intro n; simp [fixedDigits, ih]

theorem fixedDigits_digits (w : Nat) : ∀ n, ∀ c ∈ fixedDigits w n, isDigit c = true := by
  induction w with
  | zero => intro n c hc; simp [fixedDigits] at hc
  | succ w ih =>
    intro n c hc
    simp only [fixedDigits, List.mem_append, List.mem_singleton] at hc
    rcases hc with hc | hc
    · exact ih _ c hc
    · subst hc
      exact isDigit_digitChar _ (Nat.mod_lt _ (by decide))

theorem decToNat_fixedDigits (w : Nat) : ∀ n, decToNat (fixedDigits w n) = n % 10 ^ w := by
  induction w with
  | zero => intro n; simp [fixedDigits, decToNat, Nat.mod_one]
  | succ w ih =>
    intro n
    have hm : n % 10 < 10 := Nat.mod_lt _ (by decide)
    simp only [fixedDigits]
    rw [decToNat_append_single, ih, digitChar_toNat _ hm, pow_succ]
    have h1 : n % (10 ^ w * 10) = n % 10 + 10 * (n / 10 % 10 ^ w) := by
      rw [mul_comm (10 ^ w) 10, Nat.mod_mul]
    omega

/-- What `trimZeros` keeps of a number of `w` digits. -/
theorem trimZeros_spec (w : Nat) : ∀ n, n < 10 ^ w →
    (trimZeros w n).2 * 10 ^ (w - (trimZeros w n).1) = n ∧ (trimZeros w n).1 ≤ w ∧
      (trimZeros w n).2 < 10 ^ (trimZeros w n).1 ∧ (n ≠ 0 → 0 < (trimZeros w n).1) := by
  induction w with
  | zero =>
    intro n hn
    simp only [pow_zero, Nat.lt_one_iff] at hn
    subst hn
    simp [trimZeros]
  | succ w ih =>
    intro n hn
    by_cases h0 : n % 10 = 0
    · have hlt : n / 10 < 10 ^ w := by
        rw [pow_succ] at hn
        omega
      obtain ⟨h1, h2, h3, h4⟩ := ih (n / 10) hlt
      simp only [trimZeros, h0, if_true]
      refine ⟨?_, by omega, h3, ?_⟩
      · have : w + 1 - (trimZeros w (n / 10)).1 = (w - (trimZeros w (n / 10)).1) + 1 := by omega
        rw [this, pow_succ, ← mul_assoc, h1]
        omega
      · intro hn0
        exact h4 (by omega)
    · simp only [trimZeros, h0, if_false]
      refine ⟨by simp, le_refl _, hn, fun _ => by omega⟩

theorem takeWhile_all {p : Char → Bool} (l : List Char) (hl : ∀ x ∈ l, p x = true) :
    l.takeWhile p = l := by
  induction l with
  | nil => rfl
  | cons a l ih =>
    have ha : p a = true := hl a (by simp)
    simp [List.takeWhile, ha, ih (fun x hx => hl x (by simp [hx]))]

/-! ## The exact decimal expansion reads back as the float -/

/-- The parts of the exact decimal expansion: integer digits `I`, fraction digits
`fd` (none for an integer), and the value they denote. -/
theorem formatExact_shape (x : F64) : ∃ I fd : List Char,
    formatExact x = (if x.sign then ['-'] else []) ++ I ++ (if fd = [] then [] else '.' :: fd) ∧
      I ≠ [] ∧ (∀ c ∈ I, isDigit c = true) ∧ (I.head? = some '0' → I = ['0']) ∧
      (∀ c ∈ fd, isDigit c = true) ∧ fd.length ≤ 1074 ∧
      decToNat (I ++ fd) * 10 ^ (1074 - fd.length) = x.mag * 5 ^ 1074 := by
  obtain ⟨h1, h2, h3, h4⟩ := natToDec_spec (x.mag * 5 ^ 1074 / 10 ^ 1074)
  have hdm := Nat.div_add_mod (x.mag * 5 ^ 1074) (10 ^ 1074)
  by_cases hfp : x.mag * 5 ^ 1074 % 10 ^ 1074 = 0
  · refine ⟨natToDec (x.mag * 5 ^ 1074 / 10 ^ 1074), [], ?_, h1, h2, h4, by simp, by simp, ?_⟩
    · simp only [formatExact, hfp, if_true]
    · simp only [List.append_nil, h3, List.length_nil, Nat.sub_zero]
      rw [hfp] at hdm
      rw [mul_comm]
      omega
  · have hlt : x.mag * 5 ^ 1074 % 10 ^ 1074 < 10 ^ 1074 := Nat.mod_lt _ (by positivity)
    obtain ⟨t1, t2, t3, t4⟩ := trimZeros_spec 1074 _ hlt
    have hlen := fixedDigits_length (trimZeros 1074 (x.mag * 5 ^ 1074 % 10 ^ 1074)).1
      (trimZeros 1074 (x.mag * 5 ^ 1074 % 10 ^ 1074)).2
    have hne : fixedDigits (trimZeros 1074 (x.mag * 5 ^ 1074 % 10 ^ 1074)).1
        (trimZeros 1074 (x.mag * 5 ^ 1074 % 10 ^ 1074)).2 ≠ [] := by
      intro h
      rw [h] at hlen
      have := t4 hfp
      simp at hlen
      omega
    refine ⟨natToDec (x.mag * 5 ^ 1074 / 10 ^ 1074), fixedDigits
      (trimZeros 1074 (x.mag * 5 ^ 1074 % 10 ^ 1074)).1
      (trimZeros 1074 (x.mag * 5 ^ 1074 % 10 ^ 1074)).2, ?_, h1, h2, h4,
      fixedDigits_digits _ _, by rw [hlen]; exact t2, ?_⟩
    · simp only [formatExact, hfp, if_false, hne]
    · rw [decToNat_append, h3, decToNat_fixedDigits, hlen, Nat.mod_eq_of_lt t3, add_mul,
        mul_assoc, ← pow_add, t1]
      have : (trimZeros 1074 (x.mag * 5 ^ 1074 % 10 ^ 1074)).1 +
          (1074 - (trimZeros 1074 (x.mag * 5 ^ 1074 % 10 ^ 1074)).1) = 1074 := by omega
      rw [this, mul_comm]
      exact hdm

theorem head_digits_append (I F : List Char) (h0 : I ≠ []) (hd : ∀ c ∈ I, isDigit c = true) :
    ((I ++ F).head? == some '-') = false := by
  cases I with
  | nil => exact absurd rfl h0
  | cons d r =>
    have hdd : isDigit d = true := hd d (by simp)
    have : ¬ d = '-' := by
      intro h
      rw [h] at hdd
      exact absurd hdd (by decide)
    simp [this]

theorem split_digits (I fd : List Char) (hd : ∀ c ∈ I, isDigit c = true) :
    (I ++ (if fd = [] then [] else '.' :: fd)).takeWhile isDigit = I ∧
      (I ++ (if fd = [] then [] else '.' :: fd)).dropWhile isDigit =
        (if fd = [] then [] else '.' :: fd) := by
  by_cases h : fd = []
  · simp only [h, if_true, List.append_nil]
    exact ⟨takeWhile_all I hd, dropWhile_all I hd⟩
  · simp only [h, if_false]
    exact takeWhile_append_stop I '.' fd hd (by decide)

theorem validBody_shape (I fd : List Char) (h0 : I ≠ []) (hd : ∀ c ∈ I, isDigit c = true)
    (hz : I.head? = some '0' → I = ['0']) (hf : ∀ c ∈ fd, isDigit c = true) :
    validBody (I ++ (if fd = [] then [] else '.' :: fd)) = true := by
  by_cases h : fd = []
  · simp only [h, if_true, List.append_nil]
    exact validBody_digits I h0 hd hz
  · simp only [h, if_false]
    have hfrac : validFrac ('.' :: fd) = true := by
      have e1 : fd.takeWhile isDigit = fd := takeWhile_all fd hf
      have e2 : fd.dropWhile isDigit = [] := dropWhile_all fd hf
      simp [validFrac, e1, e2, h, validExp]
    cases I with
    | nil => exact absurd rfl h0
    | cons d r =>
      have hdd : isDigit d = true := hd d (by simp)
      by_cases hzero : d = '0'
      · have := hz (by simp [hzero])
        simp only [List.cons.injEq] at this
        simp only [this.2, hzero, List.cons_append, List.nil_append, validBody, beq_self_eq_true,
          if_true, hfrac]
      · have hr := (takeWhile_append_stop r '.' fd (fun x hx => hd x (by simp [hx]))
          (by decide : isDigit '.' = false)).2
        have hz' : (d == '0') = false := by simp [hzero]
        simp only [List.cons_append, validBody, hz', Bool.false_eq_true, if_false, hdd, hr, hfrac,
          Bool.and_self]

theorem validNumber_formatExact (x : F64) : validNumber (formatExact x) = true := by
  obtain ⟨I, fd, hs, h0, hd, hz, hf, _, _⟩ := formatExact_shape x
  rw [hs]
  cases x.sign with
  | true =>
    simp only [if_true, List.cons_append, List.nil_append, validNumber, List.head?_cons,
      beq_self_eq_true, List.tail_cons]
    exact validBody_shape I fd h0 hd hz hf
  | false =>
    have hh := head_digits_append I (if fd = [] then [] else '.' :: fd) h0 hd
    simp only [Bool.false_eq_true, if_false, List.nil_append, validNumber, hh]
    exact validBody_shape I fd h0 hd hz hf

theorem parseMagnitude_shape (I fd : List Char) (hd : ∀ c ∈ I, isDigit c = true)
    (hf : ∀ c ∈ fd, isDigit c = true) :
    parseMagnitude (I ++ (if fd = [] then [] else '.' :: fd)) =
      roundUnits (decToNat (I ++ fd) * 2 ^ 1076 / 10 ^ fd.length)
        (decToNat (I ++ fd) * 2 ^ 1076 % 10 ^ fd.length != 0) := by
  obtain ⟨s1, s2⟩ := split_digits I fd hd
  by_cases h : fd = []
  · subst h
    simp only [if_true, List.append_nil] at s1 s2 ⊢
    simp [parseMagnitude, s1, s2, exponentOf]
  · simp only [h, if_false] at s1 s2 ⊢
    have e1 : fd.takeWhile isDigit = fd := takeWhile_all fd hf
    have e2 : fd.dropWhile isDigit = [] := dropWhile_all fd hf
    have hlen : 0 < fd.length := List.length_pos.2 h
    have hneg : ¬ (0 : Int) ≤ 0 - (fd.length : Int) := by omega
    have hnat : (-(0 - (fd.length : Int))).toNat = fd.length := by omega
    simp only [parseMagnitude, s1, s2, List.head?_cons, beq_self_eq_true, if_true, List.tail_cons,
      e1, e2, exponentOf, hneg, if_false, hnat]

theorem ten_pow (n : Nat) : (10 : Nat) ^ n = 2 ^ n * 5 ^ n := by
  have h : (10 : Nat) = 2 * 5 := rfl
  rw [h, mul_pow]

/-- Reading the exact decimal expansion of a finite float gives the float back. -/
theorem parseNearest_formatExact (x : F64) (hx : x.isFinite = true) :
    parseNearest (formatExact x) = some x := by
  obtain ⟨I, fd, hs, h0, hd, hz, hf, hlen, hval⟩ := formatExact_shape x
  have hmag := parseMagnitude_shape I fd hd hf
  have hpos : 0 < 10 ^ fd.length := by positivity
  have hpos2 : 0 < 10 ^ (1074 - fd.length) := by positivity
  -- the literal denotes `mag * 2^-1074` exactly
  have hexact : decToNat (I ++ fd) * 2 ^ 1076 = 4 * x.mag * 10 ^ fd.length := by
    apply Nat.eq_of_mul_eq_mul_right hpos2
    have h10 : (10 : Nat) ^ fd.length * 10 ^ (1074 - fd.length) = 10 ^ 1074 := by
      rw [← pow_add]; congr 1; omega
    have h25 : (10 : Nat) ^ 1074 = 2 ^ 1074 * 5 ^ 1074 := ten_pow 1074
    calc decToNat (I ++ fd) * 2 ^ 1076 * 10 ^ (1074 - fd.length)
        = (decToNat (I ++ fd) * 10 ^ (1074 - fd.length)) * 2 ^ 1076 := by ring
      _ = x.mag * 5 ^ 1074 * 2 ^ 1076 := by rw [hval]
      _ = 4 * x.mag * (2 ^ 1074 * 5 ^ 1074) := by
          have : (2 : Nat) ^ 1076 = 4 * 2 ^ 1074 := by rw [pow_succ, pow_succ]; ring
          rw [this]; ring
      _ = 4 * x.mag * (10 ^ fd.length * 10 ^ (1074 - fd.length)) := by rw [h10, h25]
      _ = 4 * x.mag * 10 ^ fd.length * 10 ^ (1074 - fd.length) := by ring
  have hq : decToNat (I ++ fd) * 2 ^ 1076 / 10 ^ fd.length = 4 * x.mag := by
    rw [hexact]; exact Nat.mul_div_cancel _ hpos
  have hr : (decToNat (I ++ fd) * 2 ^ 1076 % 10 ^ fd.length != 0) = false := by
    rw [hexact, Nat.mul_mod_left]; rfl
  rw [hq, hr, roundUnits_mag] at hmag
  have hb : x.expo * 2 ^ 52 + x.frac < 2047 * 2 ^ 52 := by
    have h1 := x.expo_lt_of_finite hx
    have h2 := x.frac_lt
    norm_num at h2 ⊢
    omega
  have hbits := x.bits_eq
  rw [hs]
  cases hsign : x.sign with
  | true =>
    rw [hsign] at hbits
    simp only [if_true] at hbits
    simp only [if_true, List.cons_append, List.nil_append, parseNearest, List.head?_cons,
      beq_self_eq_true, List.tail_cons, hmag, hb, ← hbits, F64.ofBits_bits]
  | false =>
    rw [hsign] at hbits
    have hbits2 : x.bits = 0 + (x.expo * 2 ^ 52 + x.frac) := by
      rw [Nat.zero_add]
      simpa using hbits
    have hh := head_digits_append I (if fd = [] then [] else '.' :: fd) h0 hd
    simp only [Bool.false_eq_true, if_false, List.nil_append, parseNearest, hh, hmag, hb, if_true,
      ← hbits2, F64.ofBits_bits]

theorem parseNearest_finite (lit : List Char) (x : F64) (h : parseNearest lit = some x) :
    x.isFinite = true := by
  by_cases hb : parseMagnitude (if (lit.head? == some '-') = true then lit.tail else lit) <
      2047 * 2 ^ 52
  · simp only [parseNearest, hb, if_true, Option.some.injEq] at h
    rw [← h]
    apply isFinite_ofBits _ _ _ hb
    split
    · right; rfl
    · left; rfl
  · simp only [parseNearest, hb, if_false] at h
    cases h

/-- Conversions that have the three properties: `strconv.ParseFloat` as the nearest
float of the literal, and for the text the exact decimal expansion of the float.
encoding/json writes the shortest decimal that reads back as the float; for a float
whose shortest decimal is its exact value (10, -5.5, 24.5, ...) that is this text. -/
def exactFmt : FloatFmt :=
  ⟨formatExact, parseNearest, fun x _ => validNumber_formatExact x, parseNearest_formatExact,
    parseNearest_finite⟩

/-! ## The date that `add` writes -/

theorem sampleStore_ledger : ledgerOf exactFmt sampleStore = .ok sampleLedger := by decide!

/-- C4, as stated, fails on a ledger in which two records have the ID 1: `delete(1)`
succeeds and the ledger it saves still holds a record with the ID 1. -/
theorem C4_counterexample :
    (delete exactFmt 1 duplicateStore).err = none ∧
      ledgerOf exactFmt (delete exactFmt 1 duplicateStore).store =
        .ok [⟨1, "2024-03-11".toList, "books".toList, F64.ofBits 0x4034000000000000⟩] := by
  decide!

/-- C4 (amended): for every ledger and every id on which `delete(id)` succeeds, the
ledger that `delete` saves holds exactly one record with that id fewer than the
ledger before the call; it holds no record with that id if and only if the ledger
before the call held exactly one. -/
theorem C4_delete_one_fewer (fc : FloatFmt) (st : Store) (L : List expense) (id : GoInt)
    (hL : ledgerOf fc st = .ok L) (hok : (delete fc id st).err = none) :
    ∃ L1, ledgerOf fc (delete fc id st).store = .ok L1 ∧
      L1.countP (fun e => e.ID = id) + 1 = L.countP (fun e => e.ID = id) ∧
      ((∀ e ∈ L1, e.ID ≠ id) ↔ L.countP (fun e => e.ID = id) = 1) := by
  cases hd : deleteFirst id L with
  | none =>
    rw [delete_notFound fc id st L hL ((deleteFirst_eq_none id L).1 hd)] at hok
    cases hok
  | some L1 =>
    obtain ⟨pre, e, post, h1, h2, h3, h4⟩ := deleteFirst_eq_some id L L1 hd
    obtain ⟨_, _, r3⟩ := delete_found fc id st L L1 hL hd
    have hcount : L1.countP (fun e => e.ID = id) + 1 = L.countP (fun e => e.ID = id) := by
      rw [h1, h4]
      simp [List.countP_append, List.countP_cons, h2]
      omega
    refine ⟨L1, r3, hcount, ?_⟩
    rw [← hcount]
    constructor
    · intro h
      have : L1.countP (fun e => e.ID = id) = 0 := by
        rw [List.countP_eq_zero]
        intro a ha
        simpa using h a ha
      omega
    · intro h e he
      have h0 : L1.countP (fun e => e.ID = id) = 0 := by omega
      rw [List.countP_eq_zero] at h0
      simpa using h0 e he

theorem C4_witness :
    ledgerOf exactFmt sampleStore = .ok sampleLedger ∧
    (delete exactFmt 2 sampleStore).err = none ∧
      ∃ L1, ledgerOf exactFmt (delete exactFmt 2 sampleStore).store = .ok L1 ∧
        L1.countP (fun e => e.ID = 2) + 1 = sampleLedger.countP (fun e => e.ID = 2) ∧
        ((∀ e ∈ L1, e.ID ≠ 2) ↔ sampleLedger.countP (fun e => e.ID = 2) = 1) :=
  ⟨sampleStore_ledger, by decide!, C4_delete_one_fewer exactFmt sampleStore sampleLedger 2
    sampleStore_ledger (by decide!)⟩

/-- C6: on a store whose ledger loads, `update(id, ..)` and `delete(id)` return their
not-found error, which names `id`, if and only if no record of the ledger has that
id; a not-found error never names another id; and in that case nothing is saved:
the file is as opening left it and its ledger is the ledger before the call. -/
theorem C6_not_found (fc : FloatFmt) (st : Store) (L : List expense) (id : GoInt)
    (description : GoString) (amount : F64) (hL : ledgerOf fc st = .ok L) :
    ((update fc id description amount st).err = some (Err.updateNotFound id) ↔
        ∀ e ∈ L, e.ID ≠ id) ∧
      ((delete fc id st).err = some (Err.deleteNotFound id) ↔ ∀ e ∈ L, e.ID ≠ id) ∧
      (∀ j, (update fc id description amount st).err = some (Err.updateNotFound j) → j = id) ∧
      (∀ j, (delete fc id st).err = some (Err.deleteNotFound j) → j = id) ∧
      ((∀ e ∈ L, e.ID ≠ id) →
        (update fc id description amount st).store = some (st.getD []) ∧
        (delete fc id st).store = some (st.getD []) ∧
        ledgerOf fc (update fc id description amount st).store = .ok L ∧
        ledgerOf fc (delete fc id st).store = .ok L) := by
  have hupd : ∀ j, (update fc id description amount st).err = some (Err.updateNotFound j) →
      j = id ∧ ∀ e ∈ L, e.ID ≠ id := by
    intro j h
    cases hu : updateFirst id description amount L with
    | none =>
      have habs := (updateFirst_eq_none id description amount L).1 hu
      rw [update_notFound fc id description amount st L hL habs] at h
      simp only [Option.some.injEq, Err.updateNotFound.injEq] at h
      exact ⟨h.symm, habs⟩
    | some L1 =>
      cases ha : amount.isFinite with
      | true =>
        rw [(update_found fc id description amount st L L1 hL hu ha).1] at h
        cases h
      | false =>
        rw [update_unsupported fc id description amount st L L1 hL hu ha] at h
        cases h
  have hdel : ∀ j, (delete fc id st).err = some (Err.deleteNotFound j) →
      j = id ∧ ∀ e ∈ L, e.ID ≠ id := by
    intro j h
    cases hd : deleteFirst id L with
    | none =>
      have habs := (deleteFirst_eq_none id L).1 hd
      rw [delete_notFound fc id st L hL habs] at h
      simp only [Option.some.injEq, Err.deleteNotFound.injEq] at h
      exact ⟨h.symm, habs⟩
    | some L1 =>
      rw [(delete_found fc id st L L1 hL hd).1] at h
      cases h
  refine ⟨⟨fun h => (hupd id h).2, fun h => ?_⟩, ⟨fun h => (hdel id h).2, fun h => ?_⟩,
    fun j h => (hupd j h).1, fun j h => (hdel j h).1, fun h => ?_⟩
  · rw [update_notFound fc id description amount st L hL h]
  · rw [delete_notFound fc id st L hL h]
  · rw [update_notFound fc id description amount st L hL h, delete_notFound fc id st L hL h]
    exact ⟨rfl, rfl, by rw [ledgerOf_opened]; exact hL, by rw [ledgerOf_opened]; exact hL⟩

theorem C6_witness :
    ledgerOf exactFmt sampleStore = .ok sampleLedger ∧
    update exactFmt 7 "x".toList (F64.ofBits 0x4000000000000000) sampleStore =
      ⟨some (Err.updateNotFound 7), sampleStore, []⟩ ∧
    delete exactFmt 7 sampleStore = ⟨some (Err.deleteNotFound 7), sampleStore, []⟩ ∧
    ((delete exactFmt 7 sampleStore).err = some (Err.deleteNotFound 7) ↔
      ∀ e ∈ sampleLedger, e.ID ≠ 7) :=
  ⟨sampleStore_ledger, by decide!, by decide!,
    (C6_not_found exactFmt sampleStore sampleLedger 7 "x".toList (F64.ofBits 0x4000000000000000)
      sampleStore_ledger).2.1⟩

theorem getID_nil : (getID []).val = 1 := by decide

theorem getID_last (L : List expense) (last : expense) (h : L.getLast? = some last) :
    getID L = GoInt.wrap (last.ID.val + 1) := by
  simp only [getID, h]

theorem wrap_val_of_range (x : Int) (h1 : -(2 ^ 63) ≤ x) (h2 : x < 2 ^ 63) :
    (GoInt.wrap x).val = x := by
  simp only [GoInt.wrap]
  omega

/-- C10: there is a ledger with pairwise distinct IDs (2, 1, 5, as in the file
`unorderedStore`) on which deleting the last record and then calling `add` gives a
ledger whose new record has the ID of a record before it that is still there. -/
theorem C10_add_reuses_id :
    ∃ (L : List expense) (last : expense), L.getLast? = some last ∧
      (L.map (fun e => e.ID)).Nodup ∧ ledgerOf exactFmt unorderedStore = .ok L ∧
      ∀ (fc : FloatFmt) (now : Clock) (description : GoString) (amount : F64) (st : Store),
        ledgerOf fc st = .ok L → amount.isFinite = true →
        (delete fc last.ID st).err = none ∧
        ledgerOf fc (delete fc last.ID st).store = .ok L.dropLast ∧
        (add fc now description amount (delete fc last.ID st).store).err = none ∧
        ∃ new : expense,
          ledgerOf fc (add fc now description amount (delete fc last.ID st).store).store =
            .ok (L.dropLast ++ [new]) ∧
          ∃ e ∈ L.dropLast, e.ID = new.ID := by
  refine ⟨[⟨2, "2024-03-09".toList, "lunch".toList, F64.ofBits 0x4024000000000000⟩,
      ⟨1, "2024-03-10".toList, "tea".toList, F64.ofBits 0x4000000000000000⟩,
      ⟨5, "2024-03-11".toList, "books".toList, F64.ofBits 0x4034000000000000⟩],
    ⟨5, "2024-03-11".toList, "books".toList, F64.ofBits 0x4034000000000000⟩, rfl, by decide,
    by decide!, ?_⟩
  intro fc now description amount st hL hfin
  obtain ⟨d1, _, d3⟩ := delete_found fc 5 st _
    [⟨2, "2024-03-09".toList, "lunch".toList, F64.ofBits 0x4024000000000000⟩,
      ⟨1, "2024-03-10".toList, "tea".toList, F64.ofBits 0x4000000000000000⟩] hL (by decide)
  obtain ⟨a1, _, a3⟩ := add_ok fc now description amount _ _ d3 (by decide) hfin
  have hid : (2 : GoInt) = getID
      [⟨2, "2024-03-09".toList, "lunch".toList, F64.ofBits 0x4024000000000000⟩,
        ⟨1, "2024-03-10".toList, "tea".toList, F64.ofBits 0x4000000000000000⟩] := by decide
  exact ⟨d1, d3, a1, _, a3, ⟨2, "2024-03-09".toList, "lunch".toList,
    F64.ofBits 0x4024000000000000⟩, by decide, hid⟩

/-! ## The summary -/

theorem summaryLoop_all_parse (now : Clock) (flag : GoString) (month : GoInt)
    (L : List expense) : ∀ (total : F64) (out : List Line),
    (∀ e ∈ L, parseDate e.Date ≠ none) →
    summaryLoop now flag month L total out =
      (none, (shownRows now flag month L).foldl (fun t e => fadd t e.Amount) total,
        out ++ (shownRows now flag month L).map Line.row) := by
  induction L with
  | nil =>
    intro total out _
    simp [summaryLoop, shownRows]
  | cons t rest ih =>
    intro total out hp
    have hrest : ∀ e ∈ rest, parseDate e.Date ≠ none := fun e he => hp e (by simp [he])
    cases hd : parseDate t.Date with
    | none => exact absurd hd (hp t (by simp))
    | some ymd =>
      obtain ⟨y, m, d⟩ := ymd
      by_cases hflag : flag = "--month".toList
      · have ihr := fun total out => ih total out hrest
        simp only [shownRows, hflag, if_true] at ihr ⊢
        by_cases hpass : (m : Int) = month.val ∧ y = now.year
        · have hin : inMonth month now.year t = true := by simp [inMonth, hd, hpass]
          simp only [summaryLoop, hd, passes, if_true, hpass, and_self, decide_True, ihr,
            List.filter_cons, hin, List.foldl_cons, List.map_cons, List.append_assoc,
            List.singleton_append]
        · have hin : inMonth month now.year t = false := by simp [inMonth, hd, hpass]
          simp only [summaryLoop, hd, passes, if_true, hpass, decide_False, Bool.false_eq_true,
            if_false, ihr, List.filter_cons, hin]
      · have ihr := fun total out => ih total out hrest
        simp only [shownRows, hflag, if_false] at ihr ⊢
        simp only [summaryLoop, hd, passes, hflag, if_false, if_true, ihr, List.foldl_cons,
          List.map_cons, List.append_assoc, List.singleton_append]

/-- C8: on a ledger whose dates all parse in the layout `2006-01-02`, `summary`
returns no error and prints the column titles, a rule, one row for each record that
passes the filter, in ledger order, a rule and the total; the total is the sum,
taken in ledger order from zero, of the amounts of exactly those rows: all records
for a flag other than `--month`, and for `--month` the records whose date has the
given month and the current year. -/
theorem C8_summary_total (fc : FloatFmt) (now : Clock) (flag : GoString) (month : GoInt)
    (st : Store) (L : List expense) (hL : ledgerOf fc st = .ok L)
    (hdates : ∀ e ∈ L, parseDate e.Date ≠ none) :
    summary fc now flag month st =
      ⟨none, some (st.getD []),
        [Line.header, Line.rule] ++ (shownRows now flag month L).map Line.row ++
          [Line.rule, Line.total (sumAmounts (shownRows now flag month L))]⟩ := by
  simp only [summary, readFile_eq, hL, summaryLoop_all_parse now flag month L _ _ hdates,
    sumAmounts]

theorem C8_witness :
    (summary exactFmt sampleClock [] 0 sampleStore =
      ⟨none, sampleStore,
        [Line.header, Line.rule,
          Line.row ⟨1, "2024-03-09".toList, "lunch".toList, F64.ofBits 0x4024000000000000⟩,
          Line.row ⟨2, "2024-04-02".toList, "refund".toList, F64.ofBits 0xC016000000000000⟩,
          Line.row ⟨3, "2024-03-11".toList, "books".toList, F64.ofBits 0x4034000000000000⟩,
          Line.rule, Line.total (F64.ofBits 0x4038800000000000)]⟩) ∧
    (summary exactFmt sampleClock "--month".toList 3 sampleStore =
      ⟨none, sampleStore,
        [Line.header, Line.rule,
          Line.row ⟨1, "2024-03-09".toList, "lunch".toList, F64.ofBits 0x4024000000000000⟩,
          Line.row ⟨3, "2024-03-11".toList, "books".toList, F64.ofBits 0x4034000000000000⟩,
          Line.rule, Line.total (F64.ofBits 0x403E000000000000)]⟩) ∧
    formatExact (F64.ofBits 0x4038800000000000) = "24.5".toList ∧
    formatExact (F64.ofBits 0x403E000000000000) = "30".toList :=
  ⟨(C8_summary_total exactFmt sampleClock [] 0 sampleStore sampleLedger sampleStore_ledger
      (by decide)).trans (by decide!),
    (C8_summary_total exactFmt sampleClock "--month".toList 3 sampleStore sampleLedger
      sampleStore_ledger (by decide)).trans (by decide!),
    by decide!, by decide!⟩

/-! ## Successive calls -/

theorem runAll_append (fc : FloatFmt) (ops1 ops2 : List Op) : ∀ st : Store,
    runAll fc (ops1 ++ ops2) st = runAll fc ops2 (runAll fc ops1 st) := by
  induction ops1 with
  | nil => intro st; rfl
  | cons op ops1 ih => intro st; exact ih _

theorem ledgerOf_empty (fc : FloatFmt) (st : Store) (h : st = none ∨ st = some []) :
    ledgerOf fc st = .ok [] := by
  rcases h with h | h <;> subst h <;> rfl

/-- Successive successful calls of `add` on a ledger of `m` records whose last ID is `m`
give the IDs `m + 1`, `m + 2`, ... and append their records. -/
theorem addCalls_from (fc : FloatFmt) (calls : List (Clock × GoString × F64)) :
    ∀ (st : Store) (L0 : List expense), ledgerOf fc st = .ok L0 →
    (∀ last, L0.getLast? = some last → last.ID.val = L0.length) →
    (∀ r ∈ results fc (addCalls calls) st, r.err = none) →
    ∃ ids : List GoInt,
      ids.map (fun id => id.val) =
        (List.range calls.length).map (fun (i : Nat) => (L0.length : Int) + (i : Int) + 1) ∧
      (results fc (addCalls calls) st).map (fun r => r.out) =
        ids.map (fun id => [Line.added id]) ∧
      ledgerOf fc (runAll fc (addCalls calls) st) = .ok (L0 ++ List.zipWith recordOf ids calls) := by
  induction calls with
  | nil =>
    intro st L0 hL _ _
    exact ⟨[], by simp, by simp [addCalls, results], by simpa [addCalls, runAll] using hL⟩
  | cons c rest ih =>
    intro st L0 hL hlast hok
    have hok1 : (add fc c.1 c.2.1 c.2.2 st).err = none :=
      hok _ (by simp [addCalls, results, Op.run])
    obtain ⟨L', hL', hlen, hfin⟩ := add_success fc c.1 c.2.1 c.2.2 st hok1
    rw [hL] at hL'
    cases hL'
    obtain ⟨_, a2, a3⟩ := add_ok fc c.1 c.2.1 c.2.2 st L0 hL hlen hfin
    have hid : (getID L0).val = (L0.length : Int) + 1 := by
      cases hg : L0.getLast? with
      | none =>
        have : L0 = [] := List.getLast?_eq_none_iff.1 hg
        subst this
        exact getID_nil
      | some last =>
        rw [getID_last L0 last hg, hlast last hg]
        apply wrap_val_of_range
        · omega
        · have : L0.length < 2 ^ 63 - 1 := hlen
          omega
    have hlast' : ∀ last, (L0 ++ [recordOf (getID L0) c]).getLast? = some last →
        last.ID.val = ((L0 ++ [recordOf (getID L0) c]).length : Nat) := by
      intro last h
      rw [List.getLast?_concat] at h
      cases h
      simp only [recordOf, List.length_append, List.length_singleton, Nat.cast_add, Nat.cast_one]
      exact hid
    obtain ⟨ids, i1, i2, i3⟩ := ih (add fc c.1 c.2.1 c.2.2 st).store
      (L0 ++ [recordOf (getID L0) c]) a3 hlast'
      (fun r hr => hok r (by simp only [addCalls, List.map_cons, results, Op.run, List.mem_cons]
                             right
                             exact hr))
    refine ⟨getID L0 :: ids, ?_, ?_, ?_⟩
    · simp only [List.map_cons, List.length_cons, List.range_succ_eq_map, List.map_map, hid, i1,
        List.length_append, List.length_singleton]
      simp only [Nat.cast_zero, add_zero, List.cons.injEq, true_and]
      apply List.map_congr_left
      intro i _
      simp only [Function.comp, List.length_append, List.length_cons, List.length_nil]
      push_cast
      ring
    · simp only [addCalls, List.map_cons, results, Op.run, a2]
      exact congrArg _ i2
    · simp only [addCalls, List.map_cons, runAll, Op.run]
      rw [show runAll fc (List.map (fun c => Op.add c.1 c.2.1 c.2.2) rest)
          (add fc c.1 c.2.1 c.2.2 st).store =
          runAll fc (addCalls rest) (add fc c.1 c.2.1 c.2.2 st).store from rfl, i3,
        List.append_assoc]
      rfl

/-- C1: for every `N`, `N` successive successful calls of `add`, with any
descriptions and amounts, on a backing store that is absent or empty print the IDs
1, 2, ..., `N` in call order, and the ledger after them holds exactly the `N`
records of those calls with those IDs, in call order. -/
theorem C1_ids_in_call_order (fc : FloatFmt) (calls : List (Clock × GoString × F64))
    (st : Store) (hst : st = none ∨ st = some [])
    (hok : ∀ r ∈ results fc (addCalls calls) st, r.err = none) :
    ∃ ids : List GoInt,
      ids.map (fun id => id.val) = (List.range calls.length).map (fun (i : Nat) => (i : Int) + 1) ∧
      (results fc (addCalls calls) st).map (fun r => r.out) =
        ids.map (fun id => [Line.added id]) ∧
      ledgerOf fc (runAll fc (addCalls calls) st) = .ok (List.zipWith recordOf ids calls) := by
  obtain ⟨ids, h1, h2, h3⟩ := addCalls_from fc calls st [] (ledgerOf_empty fc st hst)
    (fun last h => by simp at h) hok
  refine ⟨ids, ?_, h2, by simpa using h3⟩
  rw [h1]
  apply List.map_congr_left
  intro i _
  simp

theorem C1_witness :
    (∀ r ∈ results exactFmt (addCalls sampleCalls) none, r.err = none) ∧
    (results exactFmt (addCalls sampleCalls) none).map (fun r => r.out) =
      [[Line.added 1], [Line.added 2], [Line.added 3]] ∧
    runAll exactFmt (addCalls sampleCalls) none = sampleStore ∧
    ∃ ids : List GoInt,
      ids.map (fun id => id.val) =
        (List.range sampleCalls.length).map (fun (i : Nat) => (i : Int) + 1) ∧
      (results exactFmt (addCalls sampleCalls) none).map (fun r => r.out) =
        ids.map (fun id => [Line.added id]) ∧
      ledgerOf exactFmt (runAll exactFmt (addCalls sampleCalls) none) =
        .ok (List.zipWith recordOf ids sampleCalls) :=
  ⟨by decide!, by decide!, by decide!,
    C1_ids_in_call_order exactFmt sampleCalls none (Or.inl rfl) (by decide!)⟩

/-! ## Uniqueness of IDs -/

theorem wrap_succ (x : Int) : GoInt.wrap ((GoInt.wrap x).val + 1) = GoInt.wrap (x + 1) := by
  apply GoInt.ext_val
  simp only [GoInt.wrap]
  omega

theorem wrap_inj (n m : Nat) (hn : 1 ≤ n) (hn2 : n ≤ 2 ^ 64) (hm : 1 ≤ m) (hm2 : m ≤ 2 ^ 64)
    (h : GoInt.wrap (n : Int) = GoInt.wrap (m : Int)) : n = m := by
  have hv := congrArg GoInt.val h
  simp only [GoInt.wrap] at hv
  omega

theorem Counted.mono {L : List expense} {a b : Nat} (h : Counted L a) (hab : a ≤ b) :
    Counted L b := by
  obtain ⟨u, h1, h2, h3⟩ := h
  exact ⟨u, h1, h2, fun n hn => ⟨(h3 n hn).1, le_trans (h3 n hn).2 hab⟩⟩

theorem Counted.nodup {L : List expense} {a : Nat} (h : Counted L a) (ha : a ≤ 2 ^ 64) :
    (L.map (fun e => e.ID)).Nodup := by
  obtain ⟨u, h1, h2, h3⟩ := h
  rw [h1]
  apply List.Nodup.map_on
  · intro x hx y hy hxy
    exact wrap_inj x y (h3 x hx).1 (le_trans (h3 x hx).2 ha) (h3 y hy).1
      (le_trans (h3 y hy).2 ha) hxy
  · exact h2.imp (fun hlt => Nat.ne_of_lt hlt)

theorem Counted.append_new {L : List expense} {a : Nat} (h : Counted L a) (e : expense)
    (he : e.ID = getID L) : Counted (L ++ [e]) (a + 1) := by
  obtain ⟨u, h1, h2, h3⟩ := h
  rcases List.eq_nil_or_concat u with hu | ⟨init, ul, hu⟩
  · subst hu
    have hL : L = [] := by simpa using h1
    subst hL
    refine ⟨[1], ?_, by simp, by simp⟩
    simp only [List.nil_append, List.map_cons, List.map_nil, he]
    rfl
  · rw [List.concat_eq_append] at hu
    subst hu
    have hlast : (L.map (fun e => e.ID)).getLast? = some (GoInt.wrap (ul : Int)) := by
      rw [h1, List.map_append, List.map_singleton, List.getLast?_concat]
    rw [List.getLast?_map] at hlast
    cases hg : L.getLast? with
    | none => rw [hg] at hlast; cases hlast
    | some last =>
      rw [hg] at hlast
      simp only [Option.map_some', Option.some.injEq] at hlast
      have hid : e.ID = GoInt.wrap ((ul + 1 : Nat) : Int) := by
        rw [he, getID_last L last hg, hlast, wrap_succ]
        rfl
      obtain ⟨p1, _, p3⟩ := List.pairwise_append.1 h2
      refine ⟨init ++ [ul] ++ [ul + 1], ?_, ?_, ?_⟩
      · rw [List.map_append, h1, List.map_append _ (init ++ [ul]), List.map_singleton,
          List.map_singleton, hid]
      · rw [List.pairwise_append]
        refine ⟨h2, by simp, ?_⟩
        intro x hx y hy
        simp only [List.mem_singleton] at hy
        subst hy
        rcases List.mem_append.1 hx with hx | hx
        · have := p3 x hx ul (by simp)
          omega
        · simp only [List.mem_singleton] at hx
          omega
      · intro n hn
        rcases List.mem_append.1 hn with hn | hn
        · exact ⟨(h3 n hn).1, by have := (h3 n hn).2; omega⟩
        · simp only [List.mem_singleton] at hn
          have := h3 ul (by simp)
          omega

theorem Counted.remove {pre post : List expense} {e : expense} {a : Nat}
    (h : Counted (pre ++ e :: post) a) : Counted (pre ++ post) a := by
  obtain ⟨u, h1, h2, h3⟩ := h
  rw [List.map_append, List.map_cons] at h1
  obtain ⟨u1, u2', hu, m1, m2⟩ := List.map_eq_append_iff.1 h1.symm
  obtain ⟨n, u2, hu2, _, m3⟩ := List.map_eq_cons_iff.1 m2
  subst hu2
  subst hu
  refine ⟨u1 ++ u2, by rw [List.map_append, List.map_append, m1, m3], ?_, ?_⟩
  · exact List.Pairwise.sublist (List.Sublist.append_left (List.sublist_cons_self n u2) u1) h2
  · intro k hk
    apply h3 k
    simp only [List.mem_append, List.mem_cons] at hk ⊢
    tauto

theorem Counted.replace {pre post : List expense} {e e1 : expense} {a : Nat}
    (h : Counted (pre ++ e :: post) a) (he : e1.ID = e.ID) : Counted (pre ++ e1 :: post) a := by
  obtain ⟨u, h1, h2, h3⟩ := h
  exact ⟨u, by rw [← h1]; simp [he], h2, h3⟩

/-- Every call leaves a store whose ledger loads and is counted, one more counter
being allowed after a call of `add`. -/
theorem Counted.step (fc : FloatFmt) (op : Op) (st : Store) (L : List expense) (a : Nat)
    (hL : ledgerOf fc st = .ok L) (hc : Counted L a) :
    ∃ L1, ledgerOf fc (op.run fc st).store = .ok L1 ∧
      Counted L1 (a + (if op.isAdd then 1 else 0)) := by
  have hsame : ledgerOf fc (some (st.getD [])) = .ok L := by rw [ledgerOf_opened]; exact hL
  cases op with
  | add now d amount =>
    simp only [Op.run, Op.isAdd, if_true]
    by_cases hlen : L.length < maxInt
    · cases ha : amount.isFinite with
      | true =>
        obtain ⟨_, _, a3⟩ := add_ok fc now d amount st L hL hlen ha
        exact ⟨_, a3, hc.append_new _ rfl⟩
      | false =>
        rw [add_unsupported fc now d amount st L hL hlen ha]
        exact ⟨L, hsame, hc.mono (by omega)⟩
    · rw [add_full fc now d amount st L hL hlen]
      exact ⟨L, hsame, hc.mono (by omega)⟩
  | update id d amount =>
    simp only [Op.run, Op.isAdd, Bool.false_eq_true, if_false, Nat.add_zero]
    cases hu : updateFirst id d amount L with
    | none =>
      rw [update_notFound fc id d amount st L hL ((updateFirst_eq_none id d amount L).1 hu)]
      exact ⟨L, hsame, hc⟩
    | some L1 =>
      cases ha : amount.isFinite with
      | true =>
        obtain ⟨_, _, u3⟩ := update_found fc id d amount st L L1 hL hu ha
        obtain ⟨pre, e, post, h1, _, _, h4⟩ := updateFirst_eq_some id d amount L L1 hu
        subst h1
        subst h4
        exact ⟨_, u3, hc.replace rfl⟩
      | false =>
        rw [update_unsupported fc id d amount st L L1 hL hu ha]
        exact ⟨L, hsame, hc⟩
  | delete id =>
    simp only [Op.run, Op.isAdd, Bool.false_eq_true, if_false, Nat.add_zero]
    cases hd : deleteFirst id L with
    | none =>
      rw [delete_notFound fc id st L hL ((deleteFirst_eq_none id L).1 hd)]
      exact ⟨L, hsame, hc⟩
    | some L1 =>
      obtain ⟨_, _, d3⟩ := delete_found fc id st L L1 hL hd
      obtain ⟨pre, e, post, h1, _, _, h4⟩ := deleteFirst_eq_some id L L1 hd
      subst h1
      subst h4
      exact ⟨_, d3, hc.remove⟩

theorem Counted.runAll (fc : FloatFmt) (ops : List Op) : ∀ (st : Store) (L : List expense)
    (a : Nat), ledgerOf fc st = .ok L → Counted L a →
    ∃ L1, ledgerOf fc (runAll fc ops st) = .ok L1 ∧ Counted L1 (a + ops.countP Op.isAdd) := by
  induction ops with
  | nil => intro st L a hL hc; exact ⟨L, hL, by simpa using hc⟩
  | cons op ops ih =>
    intro st L a hL hc
    obtain ⟨L1, h1, c1⟩ := Counted.step fc op st L a hL hc
    obtain ⟨L2, h2, c2⟩ := ih _ L1 _ h1 c1
    refine ⟨L2, h2, ?_⟩
    rw [List.countP_cons]
    have : a + (if op.isAdd = true then 1 else 0) + List.countP Op.isAdd ops =
        a + (List.countP Op.isAdd ops + if op.isAdd = true then 1 else 0) := by omega
    rw [← this]
    exact c2

/-- C2 (amended): in every ledger reached from the empty ledger (the file absent or
empty) by a finite sequence of `add`, `update` and `delete` calls, successful or
failing, with any arguments, of which at most `2^64` are calls of `add`, no two
records have the same ID. -/
theorem C2_ids_unique (fc : FloatFmt) (ops : List Op) (st : Store)
    (hst : st = none ∨ st = some []) (hadds : ops.countP Op.isAdd ≤ 2 ^ 64) :
    ∃ L, ledgerOf fc (runAll fc ops st) = .ok L ∧ (L.map (fun e => e.ID)).Nodup := by
  obtain ⟨L, h1, h2⟩ := Counted.runAll fc ops st [] 0 (ledgerOf_empty fc st hst)
    ⟨[], rfl, List.Pairwise.nil, by simp⟩
  exact ⟨L, h1, h2.nodup (by omega)⟩

theorem C2_witness :
    sampleOps.countP Op.isAdd ≤ 2 ^ 64 ∧
    ledgerOf exactFmt (runAll exactFmt sampleOps none) =
      .ok [⟨2, "2024-03-09".toList, "tea".toList, F64.ofBits 0x4000000000000000⟩,
        ⟨3, "2024-03-12".toList, "bus".toList, F64.ofBits 0x4000000000000000⟩] ∧
    ∃ L, ledgerOf exactFmt (runAll exactFmt sampleOps none) = .ok L ∧
      (L.map (fun e => e.ID)).Nodup :=
  ⟨by decide, by decide!, C2_ids_unique exactFmt sampleOps none (Or.inl rfl) (by decide)⟩

/-! ## The ID counter going around -/

theorem one_eq_wrap : (1 : GoInt) = GoInt.wrap ((1 : Nat) : Int) := rfl

theorem runAll_add_singleton (fc : FloatFmt) (now : Clock) (d : GoString) (a : F64)
    (st : Store) : runAll fc [Op.add now d a] st = (add fc now d a st).store := rfl

theorem short_lt_maxInt (L : List expense) (h : L.length ≤ 3) : L.length < maxInt := by
  have : (3 : Nat) < maxInt := by decide
  omega

/-- The ledger after the two first calls of `overflowTrace` and `j` rounds: the
record with the ID 1 and the record with the ID `j + 2`, wrapped. -/
theorem churn_ledger (fc : FloatFmt) (now : Clock) (d : GoString) (a : F64)
    (ha : a.isFinite = true) (j : Nat) : j ≤ 2 ^ 64 - 2 →
    ledgerOf fc (runAll fc ([Op.add now d a, Op.add now d a] ++ churn now d a j) none) =
      .ok [⟨1, formatDate now, d, a⟩, ⟨GoInt.wrap ((j : Int) + 2), formatDate now, d, a⟩] := by
  induction j with
  | zero =>
    intro _
    obtain ⟨_, _, a3⟩ := add_ok fc now d a none [] rfl (short_lt_maxInt _ (by simp)) ha
    obtain ⟨_, _, b3⟩ := add_ok fc now d a _ _ a3 (short_lt_maxInt _ (by simp)) ha
    simp only [churn, List.append_nil, runAll, Op.run]
    rw [b3]
    rfl
  | succ j ih =>
    intro hj
    have ihj := ih (by omega)
    simp only [churn]
    rw [← List.append_assoc, runAll_append]
    obtain ⟨_, _, a3⟩ := add_ok fc now d a _ _ ihj (short_lt_maxInt _ (by simp)) ha
    have hne : ¬ ((1 : GoInt) = GoInt.wrap ((j : Int) + 2)) := by
      intro h
      rw [one_eq_wrap] at h
      have := wrap_inj 1 (j + 2) (by omega) (by norm_num) (by omega) (by omega)
        (by simpa using h)
      omega
    have hdel : deleteFirst (GoInt.wrap ((j : Int) + 2))
        ([⟨1, formatDate now, d, a⟩, ⟨GoInt.wrap ((j : Int) + 2), formatDate now, d, a⟩] ++
          [⟨getID [⟨1, formatDate now, d, a⟩,
            ⟨GoInt.wrap ((j : Int) + 2), formatDate now, d, a⟩], formatDate now, d, a⟩]) =
        some [⟨1, formatDate now, d, a⟩,
          ⟨GoInt.wrap (((j + 1 : Nat) : Int) + 2), formatDate now, d, a⟩] := by
      have hg : getID [⟨1, formatDate now, d, a⟩,
          ⟨GoInt.wrap ((j : Int) + 2), formatDate now, d, a⟩] =
          GoInt.wrap (((j + 1 : Nat) : Int) + 2) := by
        simp only [getID, List.getLast?_cons_cons, List.getLast?_singleton, wrap_succ]
        congr 1
      simp only [List.cons_append, List.nil_append, deleteFirst, hne, if_false, if_true,
        Option.map_some', hg]
      rfl
    obtain ⟨_, _, d3⟩ := delete_found fc _ _ _ _ a3 hdel
    simp only [runAll, Op.run]
    exact d3

theorem countP_churn (now : Clock) (d : GoString) (a : F64) (j : Nat) :
    (churn now d a j).countP Op.isAdd = j := by
  induction j with
  | zero => rfl
  | succ j ih =>
    rw [churn, List.countP_append, ih]
    rfl

/-- C2, as stated, fails once the ID counter has gone around the range of `int`:
after the calls of `overflowTrace` from the absent file, of which `2^64 + 1` are
calls of `add`, the ledger holds two records with the ID 1. -/
theorem C2_counterexample :
    ledgerOf exactFmt (runAll exactFmt
        (overflowTrace sampleClock "x".toList (F64.ofBits 0x4000000000000000)) none) =
      .ok [⟨1, "2024-03-12".toList, "x".toList, F64.ofBits 0x4000000000000000⟩,
        ⟨0, "2024-03-12".toList, "x".toList, F64.ofBits 0x4000000000000000⟩,
        ⟨1, "2024-03-12".toList, "x".toList, F64.ofBits 0x4000000000000000⟩] ∧
    ¬ ([(1 : GoInt), 0, 1]).Nodup ∧
    (overflowTrace sampleClock "x".toList (F64.ofBits 0x4000000000000000)).countP Op.isAdd =
      2 ^ 64 + 1 := by
  refine ⟨?_, by decide, ?_⟩
  swap
  · unfold overflowTrace
    rw [List.countP_append, List.countP_append, countP_churn]
    rfl
  have h := churn_ledger exactFmt sampleClock "x".toList (F64.ofBits 0x4000000000000000)
    (by decide) (2 ^ 64 - 2) (le_refl _)
  obtain ⟨_, _, a3⟩ := add_ok exactFmt sampleClock "x".toList (F64.ofBits 0x4000000000000000)
    _ _ h (short_lt_maxInt _ (by simp)) (by decide)
  have hd : formatDate sampleClock = "2024-03-12".toList := by decide
  have h0 : GoInt.wrap (((2 ^ 64 - 2 : Nat) : Int) + 2) = 0 := by decide
  have h1 : getID [⟨1, "2024-03-12".toList, "x".toList, F64.ofBits 0x4000000000000000⟩,
      ⟨0, "2024-03-12".toList, "x".toList, F64.ofBits 0x4000000000000000⟩] = 1 := by decide
  rw [hd, h0, h1] at a3
  unfold overflowTrace
  rw [runAll_append, runAll_add_singleton]
  exact a3

end ExpenseTracker
